import Mathlib

/-!
Verification development for the SmartSync Obsidian plugin
(stefandanzl/obsidian-smartsync).

The TypeScript sources are shallowly embedded:
* JavaScript objects used as `FileList` (path → digest maps) become
  association lists `List (String × String)` with unique keys; object
  assignment `obj[k] = v` is `objInsert` (update in place, else append),
  `delete obj[k]` is `objDelete`, `k in obj` is `hasKey`, `obj[k]` is
  `get?`, and JS truthiness of a looked-up digest is `truthy`.
* `src/compare.ts` (class Compare) becomes pure functions; the per-key
  loops become `List.foldl` over the iterated key lists, matching the
  JavaScript `for..in` / `for..of` iteration (which only ever reads and
  writes the key currently being visited).
* The gitignore matcher produced by the external `ignore` npm package in
  `createIgnoreMatcher` is abstracted as a parameter `ig : String → Bool`
  (`true` = path is ignored); `filterExclusions` itself is embedded.
* `src/operations.ts` / `src/main.ts` (status machine, dangerCheck, sync,
  check, saveState, test) become a state-passing interpreter over
  `PState`, with external I/O (server reachability, listings, hashing)
  supplied by a `World` record.
-/

/-- A JS object mapping relative path to digest, as an association list.
JS object keys are unique; theorems that depend on this carry
`List.Nodup` hypotheses on the key list. -/
abbrev FileList := List (String × String)

/-- Keys of a FileList, in insertion order (JS `Object.keys`). -/
def keys (l : FileList) : List String := l.map Prod.fst

/-- JS property lookup `obj[k]` (`none` = `undefined`). -/
def get? (l : FileList) (k : String) : Option String :=
  (l.find? (fun p => p.1 == k)).map Prod.snd

/-- JS `k in obj` / `obj.hasOwnProperty(k)`. -/
def hasKey (l : FileList) (k : String) : Bool :=
  l.any (fun p => p.1 == k)

/-- JS assignment `obj[k] = v`: update in place if the key exists,
otherwise append. -/
def objInsert (l : FileList) (k v : String) : FileList :=
  if hasKey l k then l.map (fun p => if p.1 == k then (k, v) else p)
  else l ++ [(k, v)]

/-- JS `delete obj[k]`. -/
def objDelete (l : FileList) (k : String) : FileList :=
  l.filter (fun p => p.1 != k)

/-- JS truthiness of `obj[k]`: `undefined` and the empty string are
falsy, every other string is truthy. -/
def truthy : Option String → Bool
  | none => false
  | some s => s != ""

/-- JS object spread `{ ...a, ...b }`: keys of `a` first (values
overridden by `b` where both have the key), then the keys only in `b`. -/
def spread (a b : FileList) : FileList :=
  a.map (fun p => (p.1, ((get? b p.1).getD p.2))) ++
    b.filter (fun p => !hasKey a p.1)

/-- compare.ts `checkExistKey`: keeps only the items from sourceObject
that also exist in referenceObject. -/
def checkExistKey (sourceObject referenceObject : FileList) : FileList :=
  sourceObject.filter (fun p => hasKey referenceObject p.1)

/-- compare.ts `filterExclusions`: drop the paths matched by the ignore
matcher (`ig` abstracts the external `ignore` package instance built in
`createIgnoreMatcher`; with `exclusionsOverride` it is `fun _ => false`). -/
def filterExclusions (ig : String → Bool) (fileTree : FileList) : FileList :=
  fileTree.filter (fun p => !ig p.1)

/-- const.ts `FileTree` (the const.ts declarations ship appended to
smartSync.ts): the four category FileLists of one ChangeSet; `except`
is the conflicted category. -/
structure FileTree where
  added : FileList
  deleted : FileList
  modified : FileList
  except : FileList
deriving DecidableEq, Repr

/-- const.ts `FileTrees`: one ChangeSet per side (the
ReconciliationResult). -/
structure FileTrees where
  remoteFiles : FileTree
  localFiles : FileTree
deriving DecidableEq, Repr

def emptyFileTree : FileTree := ⟨[], [], [], []⟩

/-- One iteration of the first loop of compare.ts
`compareFileTreesExcept` (over `remoteFiles.modified`): a path modified
on both sides moves to `except` on both sides. -/
def exceptStep1 (st : FileTree × FileTree) (file1 : String) : FileTree × FileTree :=
  if truthy (get? st.2.modified file1) then
    ({ st.1 with except := objInsert st.1.except file1 ((get? st.1.modified file1).getD ""),
                 modified := objDelete st.1.modified file1 },
     { st.2 with except := objInsert st.2.except file1 ((get? st.2.modified file1).getD ""),
                 modified := objDelete st.2.modified file1 })
  else st

/-- One iteration of the second loop of compare.ts
`compareFileTreesExcept` (over `remoteFiles.added`): equal hashes are
dropped from both `added` lists, differing (truthy) hashes are moved to
`except` on both sides. -/
def exceptStep2 (st : FileTree × FileTree) (file1 : String) : FileTree × FileTree :=
  if get? st.2.added file1 = get? st.1.added file1 then
    ({ st.1 with added := objDelete st.1.added file1 },
     { st.2 with added := objDelete st.2.added file1 })
  else if truthy (get? st.2.added file1) then
    ({ st.1 with except := objInsert st.1.except file1 ((get? st.1.added file1).getD ""),
                 added := objDelete st.1.added file1 },
     { st.2 with except := objInsert st.2.except file1 ((get? st.2.added file1).getD ""),
                 added := objDelete st.2.added file1 })
  else st

/-- One iteration of the third loop of compare.ts
`compareFileTreesExcept` (over `localFiles.except`): a conflict whose
hash is now equal on both sides is resolved and removed from both. -/
def exceptStep3 (st : FileTree × FileTree) (file1 : String) : FileTree × FileTree :=
  if get? st.2.except file1 = get? st.1.except file1 then
    ({ st.1 with except := objDelete st.1.except file1 },
     { st.2 with except := objDelete st.2.except file1 })
  else st

/-- compare.ts `compareFileTreesExcept(remoteFiles, localFiles)`.
The first component of the state is `remoteFiles`, the second
`localFiles`; each JS `for..in` loop iterates the keys the object has
when the loop starts. -/
def compareFileTreesExcept (remoteFiles localFiles : FileTree) : FileTree × FileTree :=
  let st := (keys remoteFiles.modified).foldl exceptStep1 (remoteFiles, localFiles)
  let st := (keys st.1.added).foldl exceptStep2 st
  (keys st.2.except).foldl exceptStep3 st

/-- The classification loop body of compare.ts
`comparePreviousFileTree`: unchanged entries are omitted, entries with a
falsy previous hash become `added`, entries with a differing truthy
previous hash become `modified`. -/
def classifyStep (previousFiles currentFiles : FileList) (ft : FileTree)
    (e : String × String) : FileTree :=
  if get? previousFiles e.1 = get? currentFiles e.1 then ft
  else if ¬ truthy (get? previousFiles e.1) then
    { ft with added := objInsert ft.added e.1 e.2 }
  else if get? previousFiles e.1 ≠ some e.2 then
    { ft with modified := objInsert ft.modified e.1 e.2 }
  else ft

/-- The correction loop body of compare.ts `comparePreviousFileTree`:
a previous except path found in `modified` is re-raised as `except`. -/
def exceptMoveStep (ft : FileTree) (path : String) : FileTree :=
  if hasKey ft.modified path then
    { ft with except := objInsert ft.except path ((get? ft.modified path).getD ""),
              modified := objDelete ft.modified path }
  else ft

/-- The deletion loop body of compare.ts `comparePreviousFileTree`:
previous entries whose key is gone from the current listing become
`deleted`. -/
def deletedStep (previousFiles currentFiles : FileList) (ft : FileTree)
    (e : String × String) : FileTree :=
  if ¬ hasKey currentFiles e.1 then
    { ft with deleted := objInsert ft.deleted e.1 ((get? previousFiles e.1).getD "") }
  else ft

/-- compare.ts `comparePreviousFileTree(previousFiles, previousExcept,
currentFiles)`. -/
def comparePreviousFileTree (previousFiles previousExcept currentFiles : FileList) :
    FileTree :=
  let ft : FileTree :=
    { added := [], deleted := [], modified := [],
      except := checkExistKey previousExcept currentFiles }
  let ft := currentFiles.foldl (classifyStep previousFiles currentFiles) ft
  let ft := (keys previousExcept).foldl exceptMoveStep ft
  previousFiles.foldl (deletedStep previousFiles currentFiles) ft

/-- compare.ts `compareFileTrees(remoteFiles, localFiles)`.
`prevFiles` / `prevExcept` are `plugin.prevData.files` / `.except`
(a null `prevData.files` is folded into the empty list, which the
source treats identically); `ig` is the ignore matcher used by
`filterExclusions`. -/
def compareFileTrees (ig : String → Bool) (prevFiles prevExcept : FileList)
    (remoteFiles localFiles : FileList) : FileTrees :=
  if prevFiles.isEmpty || remoteFiles.isEmpty then
    if remoteFiles.isEmpty then
      { remoteFiles := emptyFileTree, localFiles := { emptyFileTree with added := localFiles } }
    else
      let st := compareFileTreesExcept
        { added := remoteFiles, deleted := [], modified := [], except := [] }
        { added := localFiles, deleted := [], modified := [], except := [] }
      { remoteFiles := st.1, localFiles := st.2 }
  else
    let filteredPrevTree := filterExclusions ig prevFiles
    let filteredExcepts := filterExclusions ig prevExcept
    let remoteFilesBranch := comparePreviousFileTree filteredPrevTree filteredExcepts remoteFiles
    let localFilesBranch := comparePreviousFileTree filteredPrevTree filteredExcepts localFiles
    let remoteFilesBranch :=
      { remoteFilesBranch with except := spread prevExcept remoteFilesBranch.except }
    let localFilesBranch :=
      { localFilesBranch with except := spread prevExcept localFilesBranch.except }
    let st := compareFileTreesExcept remoteFilesBranch localFilesBranch
    { remoteFiles := { st.1 with deleted := checkExistKey st.1.deleted localFiles },
      localFiles := { st.2 with deleted := checkExistKey st.2.deleted remoteFiles } }

/-! ### Character-level string primitives

The JavaScript string methods used by the sources (`startsWith`,
`endsWith`, `includes`, `split`, `toLowerCase`) are embedded as
computations on the character lists underlying `String`. -/

/-- `chStarts s m`: the character list `m` is an initial segment of `s`
(JS `s.startsWith(m)` on the underlying characters). -/
def chStarts : List Char → List Char → Bool
  | _, [] => true
  | [], _ :: _ => false
  | a :: s, b :: m => a == b && chStarts s m

/-- JS `s.startsWith(m)`. -/
def strStarts (s m : String) : Bool := chStarts s.data m.data

/-- JS `s.endsWith(m)`. -/
def strEnds (s m : String) : Bool := chStarts s.data.reverse m.data.reverse

/-- JS `s.includes(m)`: `m` occurs as a contiguous substring of `s`. -/
def chInfix (m : List Char) : List Char → Bool
  | [] => chStarts [] m
  | a :: rest => chStarts (a :: rest) m || chInfix m rest

/-- JS `s.split(sep)` for a one-character separator, on character
lists; JS keeps empty segments, including a trailing one. -/
def chSplit (sep : Char) : List Char → List (List Char)
  | [] => [[]]
  | c :: rest =>
    if c == sep then [] :: chSplit sep rest
    else
      match chSplit sep rest with
      | [] => [[c]]
      | h :: t => (c :: h) :: t

/-- JS `s.toLowerCase()` (ASCII letters, as used for file extensions). -/
def strToLower (s : String) : String := ⟨s.data.map Char.toLower⟩

/-! ### The status machine and orchestrator state (operations.ts / main.ts)

External effects are split off into a `World` record: server
reachability, the listings produced by the hash tree builders, and
whether building the hash trees throws. Console logging, notices and
status bar text are outside the model, except for the progress bar
reset performed by `finished()`, recorded as a flag so that the cleanup
path of `sync` is observable. -/

/-- const.ts `Status` (the enum's display emoji values are dropped;
only identity matters here): the status enum of the orchestrator;
`NONE` is the spec's Idle. -/
inductive Status where
  | NONE
  | TEST
  | CHECK
  | SYNC
  | AUTO
  | SAVE
  | OFFLINE
  | ERROR
  | PULL
  | PUSH
  | PAUSE
deriving DecidableEq, Repr

/-- The plugin state mutated by operations.ts and main.ts: the status,
the persisted snapshot (`prevData`: error flag, files, except), the
cached ChangeSets (`fileTrees`, `fullFileTrees`), the raw listings
(`allFiles`), the user's selection marks, and the progress counters. -/
structure PState where
  status : Status
  prevError : Bool
  prevFiles : FileList
  prevExcept : FileList
  fileTrees : Option FileTrees
  fullFileTrees : Option FileTrees
  allLocal : FileList
  allRemote : FileList
  selectedFiles : List (String × Bool)
  loadingTotal : Nat
  progressReset : Bool
deriving DecidableEq, Repr

/-- The external environment of one operation run: whether
`getStatus()` reports online (or throws), whether building the hash
trees throws, the listings the builders would return
(`generateRemoteHashTree`, `generateLocalHashTree(true)`,
`generateLocalHashTree(false)`), and the ignore matcher used by
`compareFileTrees`. -/
structure World where
  online : Bool
  statusThrows : Bool
  checksumsThrow : Bool
  remoteList : FileList
  localList : FileList
  fullLocalList : FileList
  ig : String → Bool

/-- main.ts `setStatus` (display side effects omitted). -/
def setStatus (p : PState) (s : Status) : PState := { p with status := s }

/-- main.ts `setError`: records the flag in `prevData` and forces
`ERROR` when setting it (the persistence write is outside the model). -/
def setError (p : PState) (e : Bool) : PState :=
  let p := { p with prevError := e }
  if e then setStatus p Status.ERROR else p

/-- main.ts `finished()`: clears the progress status bar; recorded as a
flag. -/
def finished (p : PState) : PState := { p with progressReset := true }

/-- operations.ts `test(show)` (notices omitted; `show` only affects
notices). Returns the updated state and the boolean result. On success
the status is ALWAYS reset to `NONE`, then re-set to `ERROR` if the
persisted error flag is present. -/
def testOp (w : World) (p : PState) : PState × Bool :=
  let p := setStatus p Status.TEST
  if w.statusThrows then
    (setError (setStatus p Status.ERROR) true, false)
  else if w.online then
    let p := setStatus p Status.NONE
    if p.prevError then (setStatus p Status.ERROR, true) else (p, true)
  else (setStatus p Status.OFFLINE, false)

/-- Result of operations.ts `check`: `blocked` is the JS `undefined`
early return (status gate), `failed` is `return false` (connection test
failed), `ok` is `return true`, `threw` is an exception propagating to
the caller. -/
inductive CheckOut where
  | blocked
  | failed
  | ok
  | threw
deriving DecidableEq, Repr

/-- operations.ts `dangerCheck()`, acting on the just-assigned
`fileTrees` value `ft`: first deletes the exact key `".obsidian/"` from
`localFiles.deleted` (in place, so the cached trees keep the deletion),
then counts the remaining keys starting with `".obsidian"`; more than
15 forces `errorWrite` (persisted flag + `ERROR`) and returns false. -/
def dangerCheck (p : PState) (ft : FileTrees) : PState × Bool :=
  let ft :=
    { ft with localFiles :=
        { ft.localFiles with deleted := objDelete ft.localFiles.deleted ".obsidian/" } }
  let counter := (keys ft.localFiles.deleted).countP (fun v => strStarts v ".obsidian")
  let p := { p with fileTrees := some ft }
  if 15 < counter then
    (setStatus (setError p true) Status.ERROR, false)
  else (p, true)

/-- operations.ts `check(show, exclude)` (statistics, notices and modal
rendering omitted). Note that the final `return true` is reached even
when `dangerCheck` fails — only the reset to `NONE` is gated on it. -/
def check (w : World) (p : PState) : PState × CheckOut :=
  if p.status ≠ Status.NONE ∧ p.status ≠ Status.OFFLINE then (p, CheckOut.blocked)
  else
    let p := setStatus p Status.CHECK
    let t := testOp w p
    let p := t.1
    if t.2 = false then (p, CheckOut.failed)
    else if w.checksumsThrow then
      (setStatus (setError p true) Status.ERROR, CheckOut.threw)
    else
      let remoteFiles := w.remoteList
      let localFiles := w.localList
      let p := { p with allLocal := localFiles, allRemote := remoteFiles }
      let ft := compareFileTrees w.ig p.prevFiles p.prevExcept remoteFiles localFiles
      let p := { p with fileTrees := some ft }
      let d := dangerCheck p ft
      let p := { d.1 with fullFileTrees := d.1.fileTrees }
      if d.2 then (setStatus p Status.NONE, CheckOut.ok) else (p, CheckOut.ok)

/-- main.ts `saveState` (persistence writes and notices omitted).
Commits the full local listing as the new snapshot, restoring or
dropping entries the user left unselected, and narrows the carried
except list to keys still present. The `catch`/`finally` pair means
even the crash on absent `fileTrees` ends with the flag set and status
`NONE`. -/
def saveState (w : World) (p : PState) : PState :=
  if p.prevError then p
  else if p.status = Status.NONE then
    let p := setStatus p Status.SAVE
    match p.fileTrees with
    | none => setStatus (setError p true) Status.NONE
    | some ft =>
      let files := w.fullLocalList
      let files := p.selectedFiles.foldl (fun fs e =>
        if e.2 then fs
        else
          match get? p.prevFiles e.1 with
          | some v => objInsert fs e.1 v
          | none => objDelete fs e.1) files
      let newExcept := checkExistKey ft.localFiles.except files
      setStatus { p with prevFiles := files, prevExcept := newExcept } Status.NONE
  else p

/-- One side of const.ts `Controller`: the optional per-category
directives; `0` stands for the absent / undefined JS field, `1` and
`-1` are the directives. -/
structure CtlSide where
  added : Int
  deleted : Int
  modified : Int
  except : Int
deriving DecidableEq, Repr

/-- const.ts `Controller`. The JS fields are named `local` / `remote`;
`local` is a Lean keyword, so the Lean fields are `localSide` /
`remoteSide`. `none` models an absent side object; `sync` guards each
side with a truthiness check before reading its fields. -/
structure Controller where
  localSide : Option CtlSide
  remoteSide : Option CtlSide
deriving DecidableEq, Repr

/-- A transfer dispatched by `sync`: which primitive operation runs on
which FileList. -/
inductive TransferOp where
  | download (files : FileList)
  | upload (files : FileList)
  | deleteRemote (files : FileList)
  | deleteLocal (files : FileList)
deriving DecidableEq, Repr

/-- The per-side contribution to `sync`'s operation count: a truthy
directive contributes the category's size (operations.ts lines
461-475, via `calcTotal`). -/
def countOpsSide (s : CtlSide) (ft : FileTree) : Nat :=
  (if s.added ≠ 0 then ft.added.length else 0) +
  (if s.modified ≠ 0 then ft.modified.length else 0) +
  (if s.deleted ≠ 0 then ft.deleted.length else 0) +
  (if s.except ≠ 0 then ft.except.length else 0)

/-- `sync`'s total operation count over both controller sides. -/
def countOps (c : Controller) (ft : FileTrees) : Nat :=
  (match c.remoteSide with
   | some r => countOpsSide r ft.remoteFiles
   | none => 0) +
  (match c.localSide with
   | some l => countOpsSide l ft.localFiles
   | none => 0)

/-- The remote-side dispatch table of `sync` (operations.ts lines
493-517): `+1` pulls the category onto the local side, `-1` pushes its
removal or content the other way. -/
def dispatchRemote (r : CtlSide) (ft : FileTree) : List TransferOp :=
  (if r.added = 1 then [TransferOp.download ft.added]
   else if r.added = -1 then [TransferOp.deleteRemote ft.added] else []) ++
  (if r.deleted = 1 then [TransferOp.deleteLocal ft.deleted]
   else if r.deleted = -1 then [TransferOp.upload ft.deleted] else []) ++
  (if r.modified = 1 then [TransferOp.download ft.modified]
   else if r.modified = -1 then [TransferOp.upload ft.modified] else []) ++
  (if r.except = 1 then [TransferOp.download ft.except]
   else if r.except = -1 then [TransferOp.upload ft.except] else [])

/-- The local-side dispatch table of `sync` (operations.ts lines
520-544). -/
def dispatchLocal (l : CtlSide) (ft : FileTree) : List TransferOp :=
  (if l.added = 1 then [TransferOp.upload ft.added]
   else if l.added = -1 then [TransferOp.deleteLocal ft.added] else []) ++
  (if l.deleted = 1 then [TransferOp.deleteRemote ft.deleted]
   else if l.deleted = -1 then [TransferOp.download ft.deleted] else []) ++
  (if l.modified = 1 then [TransferOp.upload ft.modified]
   else if l.modified = -1 then [TransferOp.download ft.modified] else []) ++
  (if l.except = 1 then [TransferOp.upload ft.except]
   else if l.except = -1 then [TransferOp.download ft.except] else [])

/-- All transfers `sync` dispatches for a controller and cached trees,
remote side first as in the source. -/
def syncOps (c : Controller) (ft : FileTrees) : List TransferOp :=
  (match c.remoteSide with
   | some r => dispatchRemote r ft.remoteFiles
   | none => []) ++
  (match c.localSide with
   | some l => dispatchLocal l ft.localFiles
   | none => [])

/-- How one `sync` invocation ended: blocked by the persisted error
flag, connection test failed, status gate hit, the inline `check`
returned falsy, nothing to do, completed, or the catch path ran. -/
inductive SyncOut where
  | blockedError
  | connFail
  | busy
  | checkFail
  | noFiles
  | completed
  | errored
deriving DecidableEq, Repr

/-- The tail of operations.ts `sync` once the cached ChangeSets `ft`
are in hand: enter `SYNC`, count, dispatch, reset to `NONE`, commit the
snapshot via `saveState`, re-run `check` (whose exception is the only
thing the `catch` can see here), and unconditionally reset to `NONE`;
the `finally` only clears the progress bar. Returns the state, the
outcome, and the transfers dispatched. -/
def syncCore (w : World) (c : Controller) (p : PState) (ft : FileTrees) :
    PState × SyncOut × List TransferOp :=
  let p := setStatus p Status.SYNC
  let total := countOps c ft
  let p := { p with loadingTotal := total }
  if total = 0 then (finished (setStatus p Status.NONE), SyncOut.noFiles, [])
  else
    let ops := syncOps c ft
    let p := setStatus p Status.NONE
    let p := saveState w p
    let ck := check w p
    if ck.2 = CheckOut.threw then
      (finished (setStatus (setError ck.1 true) Status.ERROR), SyncOut.errored, ops)
    else (finished (setStatus ck.1 Status.NONE), SyncOut.completed, ops)

/-- operations.ts `sync(controller, show)` (notices omitted). The
persisted-error gate sits before the `try`, so the `finally`
(`finished()`) does not run on that path. Note the status gate reads
`this.plugin.status` only AFTER `test(false)` has already rewritten it. -/
def sync (w : World) (c : Controller) (p : PState) :
    PState × SyncOut × List TransferOp :=
  if p.prevError then (p, SyncOut.blockedError, [])
  else
    let t := testOp w p
    let p := t.1
    if t.2 = false then (finished p, SyncOut.connFail, [])
    else if p.status ≠ Status.NONE then (finished p, SyncOut.busy, [])
    else
      match p.fileTrees with
      | some ft => syncCore w c p ft
      | none =>
        let ck := check w p
        match ck.2, ck.1.fileTrees with
        | CheckOut.ok, some ft => syncCore w c ck.1 ft
        | CheckOut.threw, _ =>
          (finished (setStatus (setError ck.1 true) Status.ERROR), SyncOut.errored, [])
        | _, _ => (finished ck.1, SyncOut.checkFail, [])

/-! ### Remote deletion bookkeeping (operations.ts `deleteFilesRemote`) -/

/-- The success test of operations.ts `deleteFilesRemote` on the status
code returned by `SmartSyncClient.deleteFile`: exactly 200, 204 and 404
avoid the failure path (operations.ts line 164). -/
def deleteFileSuccess (response : Nat) : Bool :=
  response == 200 || response == 204 || response == 404

/-- The path normalisation of `deleteFilesRemote`'s inner `deleteFile`:
`path.endsWith("/") ? path.replace(/\x2f$/, "") : path`. -/
def cleanPath (path : String) : String :=
  if strEnds path "/" then path.dropRight 1 else path

/-- The `failedPaths` array that `deleteFilesRemote` accumulates and
then retries once. The deletions are launched by `Promise.all` over
`Object.keys(fileTree)` and each failing one pushes its full path when
its response arrives, so the accumulation order is an arbitrary
permutation of the keys: `order` is that completion order (theorems
quantify over every permutation of the listing's keys, and assert only
permutation-invariant facts about the result). `joinBase` abstracts
`join(this.plugin.baseRemotePath, ·)` (util.ts is not among the
provided sources) and `responses` the status code the server returns
for each full path (a thrown request is subsumed by a non-success
code, since the `catch` records the same full path). -/
def failedPaths (joinBase : String → String) (responses : String → Nat)
    (order : List String) : List String :=
  order.foldl (fun acc path =>
    let fullPath := joinBase (cleanPath path)
    if deleteFileSuccess (responses fullPath) then acc else acc ++ [fullPath]) []

/-! ### The hash tree builders (checksum.ts)

`generateLocalHashTree` and `getHiddenLocalFiles` write into one shared
object; the `Promise.all` loops are serialized in source order (each
write only concerns the entry currently visited). The vault is
abstracted as the list of loaded files/folders plus a recursive listing
of the hidden configuration directory; content hashing
(util.ts `sha256`) and the metadata-cache lookup are abstracted as
functions. -/

/-- const.ts `Exclusions`: the three exclusion rule lists. -/
structure Exclusions where
  extensions : List String
  directories : List String
  markers : List String

/-- The settings and vault facts read by checksum.ts `isExcluded`:
the exclusion rules, the override and skip-hidden flags, the vault's
configuration directory name, and `extname` (util.ts is not among the
provided sources, so the extension extractor is a parameter). -/
structure XSettings where
  exclusions : Exclusions
  exclusionsOverride : Bool
  mobile : Bool
  skipHiddenMobile : Bool
  skipHiddenDesktop : Bool
  configDir : String
  extnameFn : String → String

/-- checksum.ts `isExcluded`. The split segments keep JS semantics
(`"dir/".split("/") = ["dir", ""]`; the last segment is popped unless
the path ends in a slash). The always-true `folders.some(...)` guard in
the source makes the extension check conditional only on the segment
list being non-empty. -/
def isExcluded (x : XSettings) (filePath : String) : Bool :=
  if x.exclusionsOverride then false
  else
    let directoriesMod := x.exclusions.directories ++
      (if (if x.mobile then x.skipHiddenMobile else x.skipHiddenDesktop) then
        [x.configDir ++ "/"] else [])
    let folders := chSplit (Char.ofNat 47) filePath.data
    let folders := if strEnds filePath "/" then folders else folders.dropLast
    if folders.any (fun f => directoriesMod.any (fun d => d.data == f)) then true
    else if !folders.isEmpty && !x.exclusions.extensions.isEmpty &&
        x.exclusions.extensions.any (fun e => e == strToLower (x.extnameFn filePath)) then
      true
    else if x.exclusions.markers.any (fun m => chInfix m.data filePath.data) then true
    else false

/-- One entry of `vault.getAllLoadedFiles()`: a `TFile` or a `TFolder`,
identified by its path. -/
inductive VaultEntry where
  | file (path : String)
  | folder (path : String)
deriving DecidableEq, Repr

mutual

/-- One directory listing as returned by `vault.adapter.list`: the file
paths and the subfolders (full paths with their own listings). -/
inductive FsDir where
  | mk (files : List String) (folders : FsForest)

/-- The subfolder list of an `FsDir`. -/
inductive FsForest where
  | nil
  | cons (folderPath : String) (d : FsDir) (rest : FsForest)

end

mutual

/-- checksum.ts `getHiddenLocalFiles(path, exclude)` on the listing
`d`, accumulating into the shared `remoteFiles` object `acc`: each
non-excluded file is hashed in, each non-excluded folder gets a
trailing-slash entry with digest `""` before its listing is walked. -/
def walkDir (x : XSettings) (contentHash : String → String) (exclude : Bool)
    (d : FsDir) (acc : FileList) : FileList :=
  match d with
  | FsDir.mk files folders =>
    let acc := files.foldl (fun a f =>
      if exclude && isExcluded x f then a else objInsert a f (contentHash f)) acc
    walkForest x contentHash exclude folders acc

/-- The folder loop of `getHiddenLocalFiles`. -/
def walkForest (x : XSettings) (contentHash : String → String) (exclude : Bool)
    (fs : FsForest) (acc : FileList) : FileList :=
  match fs with
  | FsForest.nil => acc
  | FsForest.cons folderName d rest =>
    let folderPath := folderName ++ "/"
    let acc :=
      if exclude && isExcluded x folderPath then acc
      else walkDir x contentHash exclude d (objInsert acc folderPath "")
    walkForest x contentHash exclude rest acc

end

/-- checksum.ts `generateLocalHashTree(exclude)` (statistics and the
`localFiles` mirror omitted). `loaded` is `vault.getAllLoadedFiles()`,
`fileCache` the metadata cache's hash per path (`none` or `""` falls
back to `contentHash`, matching the `catch` around the cache access),
`hidden` the recursive listing of the configuration directory. Folders
become trailing-slash entries with digest `""` (except the root
`"//"`), and the configuration directory entry is written
unconditionally before the hidden walk. -/
def generateLocalHashTree (x : XSettings) (contentHash : String → String)
    (fileCache : String → Option String) (loaded : List VaultEntry) (hidden : FsDir)
    (exclude : Bool) : FileList :=
  let acc : FileList := []
  let acc := loaded.foldl (fun a e =>
    match e with
    | VaultEntry.file fp =>
      if exclude && isExcluded x fp then a
      else if strEnds fp ".md" then
        match fileCache fp with
        | some h => if h != "" then objInsert a fp h else objInsert a fp (contentHash fp)
        | none => objInsert a fp (contentHash fp)
      else objInsert a fp (contentHash fp)
    | VaultEntry.folder p =>
      let fp := p ++ "/"
      if (exclude && isExcluded x fp) || fp == "//" then a
      else objInsert a fp "") acc
  let acc := objInsert acc (x.configDir ++ "/") ""
  walkDir x contentHash exclude hidden acc

/-! ### Closed test fixtures

Concrete values used by the closed evaluations below. -/

/-- An idle plugin state: status `NONE`, no persisted error, empty
snapshot, no cached ChangeSets. -/
def pIdle : PState :=
  { status := Status.NONE, prevError := false, prevFiles := [], prevExcept := [],
    fileTrees := none, fullFileTrees := none, allLocal := [], allRemote := [],
    selectedFiles := [], loadingTotal := 0, progressReset := false }

/-- Cached ChangeSets with one remotely modified file. -/
def ftCached : FileTrees :=
  { remoteFiles := { emptyFileTree with modified := [("a.md", "H2")] },
    localFiles := emptyFileTree }

/-- A pull-modified controller: remote side `modified = +1`, no local
side. -/
def cMod : Controller :=
  { localSide := none,
    remoteSide := some { added := 0, deleted := 0, modified := 1, except := 0 } }

/-- A healthy world: online, nothing throws, both listings agree on
`a.md`. -/
def wSyncGate : World :=
  { online := true, statusThrows := false, checksumsThrow := false,
    remoteList := [("a.md", "H2")], localList := [("a.md", "H2")],
    fullLocalList := [("a.md", "H2")], ig := fun _ => false }

/-- A plugin state captured mid-sync: status `SYNC`, cached ChangeSets
present, snapshot holding the old digest. -/
def pSyncing : PState :=
  { pIdle with
    status := Status.SYNC, fileTrees := some ftCached,
    prevFiles := [("a.md", "H1")] }

/-- An idle state with cached ChangeSets and the old snapshot. -/
def pCached : PState :=
  { pIdle with fileTrees := some ftCached, prevFiles := [("a.md", "H1")] }

/-- A world whose hash tree builders throw during `check`. -/
def wThrow : World :=
  { online := true, statusThrows := false, checksumsThrow := true,
    remoteList := [], localList := [], fullLocalList := [("a.md", "H2")],
    ig := fun _ => false }

/-- ChangeSets whose local deleted list holds the `".obsidian/"`
pseudo-entry plus fifteen real configuration files: sixteen
protected-prefix paths in `localFiles.deleted`. -/
def ft16 : FileTrees :=
  { remoteFiles := emptyFileTree,
    localFiles := { emptyFileTree with deleted :=
      [(".obsidian/", ""), (".obsidian/f01", "h"), (".obsidian/f02", "h"),
       (".obsidian/f03", "h"), (".obsidian/f04", "h"), (".obsidian/f05", "h"),
       (".obsidian/f06", "h"), (".obsidian/f07", "h"), (".obsidian/f08", "h"),
       (".obsidian/f09", "h"), (".obsidian/f10", "h"), (".obsidian/f11", "h"),
       (".obsidian/f12", "h"), (".obsidian/f13", "h"), (".obsidian/f14", "h"),
       (".obsidian/f15", "h")] } }

/-- Checksum settings with the exclusion override on (nothing is
excluded), configuration directory `".obsidian"`. -/
def xOverride : XSettings :=
  { exclusions := { extensions := [], directories := [], markers := [] },
    exclusionsOverride := true, mobile := false, skipHiddenMobile := false,
    skipHiddenDesktop := false, configDir := ".obsidian", extnameFn := fun _ => "" }

/-! ### Basic lookup lemmas for the object operations -/

theorem get?_nil (k : String) : get? [] k = none := rfl

theorem hasKey_nil (k : String) : hasKey [] k = false := rfl

theorem get?_cons (e : String × String) (l : FileList) (k : String) :
    get? (e :: l) k = if e.1 = k then some e.2 else get? l k := by
  by_cases h : e.1 = k
  · have hb : (e.1 == k) = true := by simpa using h
    simp [get?, List.find?, hb, h]
  · have hb : (e.1 == k) = false := by simpa using h
    simp [get?, List.find?, hb, h]

theorem hasKey_cons (e : String × String) (l : FileList) (k : String) :
    hasKey (e :: l) k = ((e.1 == k) || hasKey l k) := by
  simp [hasKey]

theorem hasKey_eq_isSome_get? (l : FileList) (k : String) :
    hasKey l k = (get? l k).isSome := by
  induction l with
  | nil => rfl
  | cons e rest ih =>
    by_cases h : e.1 = k
    · have hb : (e.1 == k) = true := by simpa using h
      simp [hasKey_cons, get?_cons, h, hb]
    · have hb : (e.1 == k) = false := by simpa using h
      simp [hasKey_cons, get?_cons, h, hb, ih]

theorem hasKey_iff_mem_keys (l : FileList) (k : String) :
    hasKey l k = true ↔ k ∈ keys l := by
  induction l with
  | nil => simp [hasKey_nil, keys]
  | cons e rest ih =>
    rw [hasKey_cons, keys, List.map_cons, List.mem_cons]
    by_cases h : e.1 = k
    · have hb : (e.1 == k) = true := by simpa using h
      simp [hb, h.symm]
    · have hb : (e.1 == k) = false := by simpa using h
      have h2 : ¬ (k = e.1) := fun hh => h hh.symm
      simpa [hb, h2, keys] using ih

theorem get?_append (a b : FileList) (k : String) :
    get? (a ++ b) k = match get? a k with
      | some v => some v
      | none => get? b k := by
  induction a with
  | nil => simp [get?_nil]
  | cons e rest ih =>
    rw [List.cons_append, get?_cons, get?_cons]
    by_cases h : e.1 = k
    · simp [h]
    · simp [h, ih]

theorem get?_map_insertFn (l : FileList) (k v k' : String) :
    get? (l.map (fun p => if p.1 == k then (k, v) else p)) k'
      = if k' = k then (if hasKey l k then some v else none) else get? l k' := by
  induction l with
  | nil =>
    by_cases h : k' = k <;> simp [get?_nil, hasKey_nil, h]
  | cons e rest ih =>
    rw [List.map_cons, get?_cons]
    by_cases hek : e.1 = k
    · have hbe : (e.1 == k) = true := by simpa using hek
      have hhk : hasKey (e :: rest) k = true := by
        rw [hasKey_cons, hbe]; rfl
      simp only [hbe, if_true]
      by_cases hk' : k' = k
      · have hc : ((k, v) : String × String).1 = k' := by simp [hk']
        rw [if_pos hc]
        simp [hk', hhk]
      · have h1 : ¬ (((k, v) : String × String).1 = k') := fun hh => hk' hh.symm
        rw [if_neg h1, ih, if_neg hk', if_neg hk', get?_cons]
        have h2 : ¬ (e.1 = k') := by rw [hek]; exact fun hh => hk' hh.symm
        rw [if_neg h2]
    · have hbe : (e.1 == k) = false := by simpa using hek
      have hkc : hasKey (e :: rest) k = hasKey rest k := by
        rw [hasKey_cons, hbe, Bool.false_or]
      simp only [hbe, Bool.false_eq_true, if_false]
      by_cases hk' : k' = k
      · have h2 : ¬ (e.1 = k') := fun hh => hek (hh.trans hk')
        rw [if_neg h2, ih, if_pos hk', if_pos hk', hkc]
      · rw [ih, if_neg hk', if_neg hk', get?_cons]

theorem get?_objInsert (l : FileList) (k v k' : String) :
    get? (objInsert l k v) k' = if k' = k then some v else get? l k' := by
  unfold objInsert
  by_cases hk : hasKey l k = true
  · rw [if_pos hk, get?_map_insertFn, hk]
    by_cases h : k' = k <;> simp [h]
  · rw [if_neg hk, get?_append]
    by_cases h : k' = k
    · have hnone : get? l k' = none := by
        rw [h]
        rw [hasKey_eq_isSome_get?] at hk
        cases hg : get? l k with
        | none => rfl
        | some w => rw [hg] at hk; simp at hk
      rw [hnone]
      have hc : ((k, v) : String × String).1 = k' := by simp [h]
      simp [get?_cons, hc, h]
    · have h2 : ¬ (((k, v) : String × String).1 = k') := fun hh => h hh.symm
      cases hg : get? l k' with
      | some w => simp [hg, h]
      | none => simp [hg, get?_cons, h2, get?_nil, h]

theorem get?_objDelete (l : FileList) (k k' : String) :
    get? (objDelete l k) k' = if k' = k then none else get? l k' := by
  induction l with
  | nil => unfold objDelete; by_cases h : k' = k <;> simp [get?_nil, h]
  | cons e rest ih =>
    unfold objDelete at ih ⊢
    rw [List.filter_cons]
    by_cases hek : e.1 = k
    · have hne : (e.1 != k) = false := by simp [hek]
      rw [hne]
      simp only [Bool.false_eq_true, if_false, ih]
      by_cases hk' : k' = k
      · rw [if_pos hk', if_pos hk']
      · have h2 : ¬ (e.1 = k') := by rw [hek]; exact fun hh => hk' hh.symm
        rw [if_neg hk', if_neg hk', get?_cons, if_neg h2]
    · have hne : (e.1 != k) = true := by simp [hek]
      rw [hne]
      simp only [if_true]
      rw [get?_cons, get?_cons]
      by_cases he' : e.1 = k'
      · have h3 : ¬ (k' = k) := by rw [← he']; exact hek
        rw [if_pos he', if_neg h3, if_pos he']
      · rw [if_neg he', ih, if_neg he']

theorem hasKey_objInsert (l : FileList) (k v k' : String) :
    hasKey (objInsert l k v) k' = if k' = k then true else hasKey l k' := by
  rw [hasKey_eq_isSome_get?, get?_objInsert]
  by_cases h : k' = k <;> simp [h, hasKey_eq_isSome_get?]

theorem hasKey_objDelete (l : FileList) (k k' : String) :
    hasKey (objDelete l k) k' = if k' = k then false else hasKey l k' := by
  rw [hasKey_eq_isSome_get?, get?_objDelete]
  by_cases h : k' = k <;> simp [h, hasKey_eq_isSome_get?]

theorem get?_filter_key (q : String → Bool) (l : FileList) (k : String) :
    get? (l.filter (fun p => q p.1)) k = if q k then get? l k else none := by
  induction l with
  | nil => by_cases h : q k = true <;> simp [get?_nil, h]
  | cons e rest ih =>
    rw [List.filter_cons]
    by_cases hqe : q e.1 = true
    · rw [hqe]
      simp only [if_true]
      rw [get?_cons, get?_cons]
      by_cases he : e.1 = k
      · rw [← he, hqe]
        simp [he]
      · rw [if_neg he, if_neg he, ih]
    · have hqe' : q e.1 = false := by simpa using hqe
      rw [hqe']
      simp only [Bool.false_eq_true, if_false, ih]
      rw [get?_cons]
      by_cases he : e.1 = k
      · rw [← he, hqe']
        simp [he]
      · rw [if_neg he]

theorem get?_checkExistKey (s r : FileList) (k : String) :
    get? (checkExistKey s r) k = if hasKey r k then get? s k else none :=
  get?_filter_key (fun x => hasKey r x) s k

theorem get?_filterExclusions (ig : String → Bool) (l : FileList) (k : String) :
    get? (filterExclusions ig l) k = if ig k then none else get? l k := by
  have h := get?_filter_key (fun x => !ig x) l k
  unfold filterExclusions
  rw [h]
  by_cases hig : ig k = true
  · simp [hig]
  · simp [hig]

theorem get?_map_keyval (f : String → String → String) (l : FileList) (k : String) :
    get? (l.map (fun p => (p.1, f p.1 p.2))) k = (get? l k).map (f k) := by
  induction l with
  | nil => simp [get?_nil]
  | cons e rest ih =>
    rw [List.map_cons, get?_cons, get?_cons]
    by_cases he : e.1 = k
    · rw [← he]
      simp
    · simp only [he, if_false, ih]

theorem get?_spread (a b : FileList) (k : String) :
    get? (spread a b) k = match get? b k with
      | some w => some w
      | none => get? a k := by
  unfold spread
  rw [get?_append, get?_map_keyval (fun x y => (get? b x).getD y)]
  rw [get?_filter_key (fun x => !hasKey a x) b k]
  cases hga : get? a k with
  | some v =>
    cases hgb : get? b k with
    | some w => simp [hgb]
    | none => simp [hgb]
  | none =>
    have hk : hasKey a k = false := by rw [hasKey_eq_isSome_get?, hga]; rfl
    cases hgb : get? b k with
    | some w => simp [hk, hgb]
    | none => simp [hk, hgb]

theorem hasKey_spread (a b : FileList) (k : String) :
    hasKey (spread a b) k = (hasKey a k || hasKey b k) := by
  rw [hasKey_eq_isSome_get?, get?_spread, hasKey_eq_isSome_get?, hasKey_eq_isSome_get?]
  cases get? a k <;> cases get? b k <;> simp

/-! ### Key uniqueness is preserved by the object operations -/

theorem keys_map_insertFn (l : FileList) (k v : String) :
    keys (l.map (fun p => if p.1 == k then (k, v) else p)) = keys l := by
  unfold keys
  rw [List.map_map]
  apply List.map_congr_left
  intro p _
  show (if p.1 == k then (k, v) else p).1 = p.1
  by_cases h : p.1 = k
  · have hb : (p.1 == k) = true := by simpa using h
    simp [hb, h]
  · have hb : (p.1 == k) = false := by simpa using h
    simp [hb]

theorem nodupKeys_objInsert (l : FileList) (k v : String)
    (h : (keys l).Nodup) : (keys (objInsert l k v)).Nodup := by
  unfold objInsert
  by_cases hk : hasKey l k = true
  · rw [if_pos hk, keys_map_insertFn]
    exact h
  · rw [if_neg hk]
    have hmem : k ∉ keys l := fun hm => hk ((hasKey_iff_mem_keys l k).mpr hm)
    unfold keys at h hmem ⊢
    rw [List.map_append, List.nodup_append]
    refine ⟨h, List.nodup_singleton _, ?_⟩
    intro a ha hb
    simp at hb
    subst hb
    exact hmem ha

theorem nodupKeys_filter (q : String × String → Bool) (l : FileList)
    (h : (keys l).Nodup) : (keys (l.filter q)).Nodup := by
  unfold keys at h ⊢
  exact ((List.filter_sublist l).map Prod.fst).nodup h

theorem nodupKeys_objDelete (l : FileList) (k : String)
    (h : (keys l).Nodup) : (keys (objDelete l k)).Nodup :=
  nodupKeys_filter (fun p => p.1 != k) l h

theorem nodupKeys_checkExistKey (s r : FileList)
    (h : (keys s).Nodup) : (keys (checkExistKey s r)).Nodup :=
  nodupKeys_filter (fun p => hasKey r p.1) s h

theorem nodupKeys_filterExclusions (ig : String → Bool) (l : FileList)
    (h : (keys l).Nodup) : (keys (filterExclusions ig l)).Nodup :=
  nodupKeys_filter (fun p => !ig p.1) l h

theorem keys_map_keyval (f : String → String → String) (l : FileList) :
    keys (l.map (fun p => (p.1, f p.1 p.2))) = keys l := by
  unfold keys
  rw [List.map_map]
  apply List.map_congr_left
  intro p _
  rfl

theorem nodupKeys_spread (a b : FileList)
    (ha : (keys a).Nodup) (hb : (keys b).Nodup) : (keys (spread a b)).Nodup := by
  unfold spread keys
  rw [List.map_append]
  rw [show (a.map (fun p => (p.1, (get? b p.1).getD p.2))).map Prod.fst = keys a from
    keys_map_keyval (fun x y => (get? b x).getD y) a]
  have hfil : ((b.filter (fun p => !hasKey a p.1)).map Prod.fst).Nodup :=
    nodupKeys_filter (fun p => !hasKey a p.1) b hb
  rw [List.nodup_append]
  refine ⟨ha, hfil, ?_⟩
  intro x hx hy
  rcases List.mem_map.mp hy with ⟨p, hp, hpx⟩
  rcases List.mem_filter.mp hp with ⟨hpb, hcond⟩
  have hfalse : hasKey a p.1 = false := by simpa using hcond
  rw [hpx] at hfalse
  exact absurd ((hasKey_iff_mem_keys a x).mpr hx) (by simp [hfalse])

/-! ### Per-key characterization of comparePreviousFileTree -/

theorem some_getD_of_isSome (o : Option String) (h : o.isSome = true) :
    some (o.getD "") = o := by
  cases o with
  | none => simp at h
  | some v => rfl

theorem get?_of_mem_nodup (l : FileList) (k v : String)
    (hl : (keys l).Nodup) (hm : (k, v) ∈ l) : get? l k = some v := by
  induction l with
  | nil => simp at hm
  | cons e rest ih =>
    rw [keys, List.map_cons, List.nodup_cons] at hl
    rcases List.mem_cons.mp hm with he | hr
    · rw [← he, get?_cons, if_pos rfl]
    · have hk : k ∈ keys rest := List.mem_map.mpr ⟨(k, v), hr, rfl⟩
      have hne : ¬ (e.1 = k) := fun hh => hl.1 (hh ▸ hk)
      rw [get?_cons, if_neg hne]
      exact ih hl.2 hr

theorem classifyStep_except (P X : FileList) (ft : FileTree) (e : String × String) :
    (classifyStep P X ft e).except = ft.except := by
  unfold classifyStep
  split_ifs <;> rfl

theorem classifyStep_deleted (P X : FileList) (ft : FileTree) (e : String × String) :
    (classifyStep P X ft e).deleted = ft.deleted := by
  unfold classifyStep
  split_ifs <;> rfl

theorem classify_foldl_except (P X : FileList) (C : List (String × String)) (ft : FileTree) :
    (C.foldl (classifyStep P X) ft).except = ft.except := by
  induction C generalizing ft with
  | nil => rfl
  | cons e rest ih => rw [List.foldl_cons, ih, classifyStep_except]

theorem classify_foldl_deleted (P X : FileList) (C : List (String × String)) (ft : FileTree) :
    (C.foldl (classifyStep P X) ft).deleted = ft.deleted := by
  induction C generalizing ft with
  | nil => rfl
  | cons e rest ih => rw [List.foldl_cons, ih, classifyStep_deleted]

theorem classifyStep_added_ne (P X : FileList) (ft : FileTree) (e : String × String)
    (k : String) (h : ¬ (k = e.1)) :
    get? (classifyStep P X ft e).added k = get? ft.added k := by
  unfold classifyStep
  split_ifs <;> simp [get?_objInsert, h]

theorem classifyStep_modified_ne (P X : FileList) (ft : FileTree) (e : String × String)
    (k : String) (h : ¬ (k = e.1)) :
    get? (classifyStep P X ft e).modified k = get? ft.modified k := by
  unfold classifyStep
  split_ifs <;> simp [get?_objInsert, h]

theorem classify_foldl_added_frame (P X : FileList) (C : List (String × String))
    (ft : FileTree) (k : String) (h : ¬ k ∈ keys C) :
    get? (C.foldl (classifyStep P X) ft).added k = get? ft.added k := by
  induction C generalizing ft with
  | nil => rfl
  | cons e rest ih =>
    rw [keys, List.map_cons, List.mem_cons] at h
    push_neg at h
    rw [List.foldl_cons, ih _ (by simpa [keys] using h.2), classifyStep_added_ne _ _ _ _ _ h.1]

theorem classify_foldl_modified_frame (P X : FileList) (C : List (String × String))
    (ft : FileTree) (k : String) (h : ¬ k ∈ keys C) :
    get? (C.foldl (classifyStep P X) ft).modified k = get? ft.modified k := by
  induction C generalizing ft with
  | nil => rfl
  | cons e rest ih =>
    rw [keys, List.map_cons, List.mem_cons] at h
    push_neg at h
    rw [List.foldl_cons, ih _ (by simpa [keys] using h.2), classifyStep_modified_ne _ _ _ _ _ h.1]

theorem classify_foldl_added_get (P X : FileList) (C : List (String × String))
    (ft : FileTree) (k : String) (hC : (keys C).Nodup)
    (hsub : ∀ e ∈ C, get? X e.1 = some e.2) :
    get? (C.foldl (classifyStep P X) ft).added k =
      if k ∈ keys C ∧ get? P k ≠ get? X k ∧ truthy (get? P k) = false
      then get? X k else get? ft.added k := by
  induction C generalizing ft with
  | nil => simp [keys]
  | cons e rest ih =>
    rw [keys, List.map_cons, List.nodup_cons] at hC
    have hsubr : ∀ x ∈ rest, get? X x.1 = some x.2 := fun x hx => hsub x (List.mem_cons_of_mem e hx)
    rw [List.foldl_cons]
    by_cases hek : k = e.1
    · have hkr : ¬ k ∈ keys rest := hek ▸ hC.1
      rw [classify_foldl_added_frame P X rest _ k hkr]
      have hXk : get? X k = some e.2 := hek ▸ hsub e (List.mem_cons_self e rest)
      unfold classifyStep
      by_cases h1 : get? P e.1 = get? X e.1
      · rw [if_pos h1]
        have hc : ¬ (get? P k ≠ get? X k) := by rw [hek]; simpa using h1
        have : ¬ (k ∈ keys (e :: rest) ∧ get? P k ≠ get? X k ∧ truthy (get? P k) = false) :=
          fun hh => hc hh.2.1
        rw [if_neg this]
      · rw [if_neg h1]
        by_cases h2 : truthy (get? P e.1) = true
        · have h2' : ¬ ¬ (truthy (get? P e.1) = true) := fun hh => hh h2
          rw [if_neg h2']
          by_cases h3 : get? P e.1 ≠ some e.2
          · rw [if_pos h3]
            have : ¬ (k ∈ keys (e :: rest) ∧ get? P k ≠ get? X k ∧ truthy (get? P k) = false) := by
              intro hh
              rw [hek] at hh
              exact absurd h2 (by simp [hh.2.2])
            rw [if_neg this]
          · rw [if_neg h3]
            have : ¬ (k ∈ keys (e :: rest) ∧ get? P k ≠ get? X k ∧ truthy (get? P k) = false) := by
              intro hh
              rw [hek] at hh
              exact absurd h2 (by simp [hh.2.2])
            rw [if_neg this]
        · rw [if_pos (by simpa using h2)]
          show get? (objInsert ft.added e.1 e.2) k = _
          rw [get?_objInsert, if_pos hek]
          have : k ∈ keys (e :: rest) ∧ get? P k ≠ get? X k ∧ truthy (get? P k) = false := by
            refine ⟨?_, ?_, ?_⟩
            · rw [keys, List.map_cons, hek]; exact List.mem_cons_self _ _
            · rw [hek]; exact h1
            · rw [hek]; simpa using h2
          rw [if_pos this, hXk]
    · rw [ih _ hC.2 hsubr]
      have hmem : (k ∈ keys (e :: rest)) ↔ (k ∈ keys rest) := by
        rw [keys, List.map_cons, List.mem_cons]
        exact ⟨fun h => h.resolve_left hek, Or.inr⟩
      by_cases hc : k ∈ keys rest ∧ get? P k ≠ get? X k ∧ truthy (get? P k) = false
      · rw [if_pos hc, if_pos ⟨hmem.mpr hc.1, hc.2⟩]
      · rw [if_neg hc, if_neg (fun hh => hc ⟨hmem.mp hh.1, hh.2⟩)]
        exact classifyStep_added_ne P X ft e k hek

theorem classify_foldl_modified_get (P X : FileList) (C : List (String × String))
    (ft : FileTree) (k : String) (hC : (keys C).Nodup)
    (hsub : ∀ e ∈ C, get? X e.1 = some e.2) :
    get? (C.foldl (classifyStep P X) ft).modified k =
      if k ∈ keys C ∧ get? P k ≠ get? X k ∧ truthy (get? P k) = true
      then get? X k else get? ft.modified k := by
  induction C generalizing ft with
  | nil => simp [keys]
  | cons e rest ih =>
    rw [keys, List.map_cons, List.nodup_cons] at hC
    have hsubr : ∀ x ∈ rest, get? X x.1 = some x.2 := fun x hx => hsub x (List.mem_cons_of_mem e hx)
    rw [List.foldl_cons]
    by_cases hek : k = e.1
    · have hkr : ¬ k ∈ keys rest := hek ▸ hC.1
      rw [classify_foldl_modified_frame P X rest _ k hkr]
      have hXk : get? X k = some e.2 := hek ▸ hsub e (List.mem_cons_self e rest)
      unfold classifyStep
      by_cases h1 : get? P e.1 = get? X e.1
      · rw [if_pos h1]
        have hc : ¬ (get? P k ≠ get? X k) := by rw [hek]; simpa using h1
        rw [if_neg (fun hh => hc hh.2.1)]
      · rw [if_neg h1]
        by_cases h2 : truthy (get? P e.1) = true
        · have h2' : ¬ ¬ (truthy (get? P e.1) = true) := fun hh => hh h2
          rw [if_neg h2']
          have hXe : get? X e.1 = some e.2 := by rw [← hek]; exact hXk
          have h3 : get? P e.1 ≠ some e.2 := fun hh => h1 (by rw [hh, hXe])
          rw [if_pos h3]
          show get? (objInsert ft.modified e.1 e.2) k = _
          rw [get?_objInsert, if_pos hek]
          have : k ∈ keys (e :: rest) ∧ get? P k ≠ get? X k ∧ truthy (get? P k) = true := by
            refine ⟨?_, ?_, ?_⟩
            · rw [keys, List.map_cons, hek]; exact List.mem_cons_self _ _
            · rw [hek]; exact h1
            · rw [hek]; exact h2
          rw [if_pos this, hXk]
        · rw [if_pos (by simpa using h2)]
          have : ¬ (k ∈ keys (e :: rest) ∧ get? P k ≠ get? X k ∧ truthy (get? P k) = true) := by
            intro hh
            rw [hek] at hh
            exact h2 hh.2.2
          rw [if_neg this]
    · rw [ih _ hC.2 hsubr]
      have hmem : (k ∈ keys (e :: rest)) ↔ (k ∈ keys rest) := by
        rw [keys, List.map_cons, List.mem_cons]
        exact ⟨fun h => h.resolve_left hek, Or.inr⟩
      by_cases hc : k ∈ keys rest ∧ get? P k ≠ get? X k ∧ truthy (get? P k) = true
      · rw [if_pos hc, if_pos ⟨hmem.mpr hc.1, hc.2⟩]
      · rw [if_neg hc, if_neg (fun hh => hc ⟨hmem.mp hh.1, hh.2⟩)]
        exact classifyStep_modified_ne P X ft e k hek

/-! Per-key lemmas for the previous-except correction loop. -/

theorem exceptMoveStep_added (ft : FileTree) (x : String) :
    (exceptMoveStep ft x).added = ft.added := by
  unfold exceptMoveStep
  split_ifs <;> rfl

theorem exceptMoveStep_deleted (ft : FileTree) (x : String) :
    (exceptMoveStep ft x).deleted = ft.deleted := by
  unfold exceptMoveStep
  split_ifs <;> rfl

theorem move_foldl_added (K : List String) (ft : FileTree) :
    (K.foldl exceptMoveStep ft).added = ft.added := by
  induction K generalizing ft with
  | nil => rfl
  | cons x rest ih => rw [List.foldl_cons, ih, exceptMoveStep_added]

theorem move_foldl_deleted (K : List String) (ft : FileTree) :
    (K.foldl exceptMoveStep ft).deleted = ft.deleted := by
  induction K generalizing ft with
  | nil => rfl
  | cons x rest ih => rw [List.foldl_cons, ih, exceptMoveStep_deleted]

theorem exceptMoveStep_modified_ne (ft : FileTree) (x k : String) (h : ¬ (k = x)) :
    get? (exceptMoveStep ft x).modified k = get? ft.modified k := by
  unfold exceptMoveStep
  split_ifs <;> simp [get?_objDelete, h]

theorem exceptMoveStep_except_ne (ft : FileTree) (x k : String) (h : ¬ (k = x)) :
    get? (exceptMoveStep ft x).except k = get? ft.except k := by
  unfold exceptMoveStep
  split_ifs <;> simp [get?_objInsert, h]

theorem move_foldl_modified_frame (K : List String) (ft : FileTree) (k : String)
    (h : ¬ k ∈ K) :
    get? (K.foldl exceptMoveStep ft).modified k = get? ft.modified k := by
  induction K generalizing ft with
  | nil => rfl
  | cons x rest ih =>
    rw [List.mem_cons] at h
    push_neg at h
    rw [List.foldl_cons, ih _ h.2, exceptMoveStep_modified_ne _ _ _ h.1]

theorem move_foldl_except_frame (K : List String) (ft : FileTree) (k : String)
    (h : ¬ k ∈ K) :
    get? (K.foldl exceptMoveStep ft).except k = get? ft.except k := by
  induction K generalizing ft with
  | nil => rfl
  | cons x rest ih =>
    rw [List.mem_cons] at h
    push_neg at h
    rw [List.foldl_cons, ih _ h.2, exceptMoveStep_except_ne _ _ _ h.1]

theorem move_foldl_modified_get (K : List String) (ft : FileTree) (k : String)
    (hK : K.Nodup) :
    get? (K.foldl exceptMoveStep ft).modified k =
      if k ∈ K ∧ hasKey ft.modified k = true then none else get? ft.modified k := by
  induction K generalizing ft with
  | nil => simp
  | cons x rest ih =>
    rw [List.nodup_cons] at hK
    rw [List.foldl_cons]
    by_cases hek : k = x
    · have hkr : ¬ k ∈ rest := hek ▸ hK.1
      rw [move_foldl_modified_frame rest _ k hkr]
      unfold exceptMoveStep
      by_cases hm : hasKey ft.modified x = true
      · rw [if_pos hm]
        show get? (objDelete ft.modified x) k = _
        rw [get?_objDelete, if_pos hek,
          if_pos ⟨List.mem_cons.mpr (Or.inl hek), hek ▸ hm⟩]
      · rw [if_neg hm, if_neg (fun hh => hm (hek ▸ hh.2))]
    · rw [ih _ hK.2]
      have hmem : (k ∈ x :: rest) ↔ (k ∈ rest) :=
        ⟨fun h => (List.mem_cons.mp h).resolve_left hek, List.mem_cons_of_mem x⟩
      have hfm : get? (exceptMoveStep ft x).modified k = get? ft.modified k :=
        exceptMoveStep_modified_ne ft x k hek
      have hfm2 : hasKey (exceptMoveStep ft x).modified k = hasKey ft.modified k := by
        rw [hasKey_eq_isSome_get?, hasKey_eq_isSome_get?, hfm]
      by_cases hc : k ∈ rest ∧ hasKey ft.modified k = true
      · rw [if_pos (by rw [hfm2]; exact hc), if_pos ⟨hmem.mpr hc.1, hc.2⟩]
      · rw [if_neg (fun hh => hc ⟨hh.1, by rw [← hfm2]; exact hh.2⟩),
          if_neg (fun hh => hc ⟨hmem.mp hh.1, hh.2⟩), hfm]

theorem move_foldl_except_get (K : List String) (ft : FileTree) (k : String)
    (hK : K.Nodup) :
    get? (K.foldl exceptMoveStep ft).except k =
      if k ∈ K ∧ hasKey ft.modified k = true
      then get? ft.modified k else get? ft.except k := by
  induction K generalizing ft with
  | nil => simp
  | cons x rest ih =>
    rw [List.nodup_cons] at hK
    rw [List.foldl_cons]
    by_cases hek : k = x
    · have hkr : ¬ k ∈ rest := hek ▸ hK.1
      rw [move_foldl_except_frame rest _ k hkr]
      unfold exceptMoveStep
      by_cases hm : hasKey ft.modified x = true
      · rw [if_pos hm]
        show get? (objInsert ft.except x ((get? ft.modified x).getD "")) k = _
        rw [get?_objInsert, if_pos hek,
          if_pos ⟨List.mem_cons.mpr (Or.inl hek), hek ▸ hm⟩, hek,
          some_getD_of_isSome _ (by rw [← hasKey_eq_isSome_get?]; exact hm)]
      · rw [if_neg hm, if_neg (fun hh => hm (hek ▸ hh.2))]
    · rw [ih _ hK.2]
      have hmem : (k ∈ x :: rest) ↔ (k ∈ rest) :=
        ⟨fun h => (List.mem_cons.mp h).resolve_left hek, List.mem_cons_of_mem x⟩
      have hfm : get? (exceptMoveStep ft x).modified k = get? ft.modified k :=
        exceptMoveStep_modified_ne ft x k hek
      have hfm2 : hasKey (exceptMoveStep ft x).modified k = hasKey ft.modified k := by
        rw [hasKey_eq_isSome_get?, hasKey_eq_isSome_get?, hfm]
      by_cases hc : k ∈ rest ∧ hasKey ft.modified k = true
      · rw [if_pos (show k ∈ rest ∧ hasKey (exceptMoveStep ft x).modified k = true by
            rw [hfm2]; exact hc), hfm, if_pos ⟨hmem.mpr hc.1, hc.2⟩]
      · rw [if_neg (fun hh => hc ⟨hh.1, by rw [← hfm2]; exact hh.2⟩),
          if_neg (fun hh => hc ⟨hmem.mp hh.1, hh.2⟩)]
        exact exceptMoveStep_except_ne ft x k hek

/-! Per-key lemmas for the deletion loop. -/

theorem deletedStep_others (P X : FileList) (ft : FileTree) (e : String × String) :
    (deletedStep P X ft e).added = ft.added ∧
    (deletedStep P X ft e).modified = ft.modified ∧
    (deletedStep P X ft e).except = ft.except := by
  unfold deletedStep
  split_ifs <;> exact ⟨rfl, rfl, rfl⟩

theorem deleted_foldl_others (P X : FileList) (C : List (String × String)) (ft : FileTree) :
    (C.foldl (deletedStep P X) ft).added = ft.added ∧
    (C.foldl (deletedStep P X) ft).modified = ft.modified ∧
    (C.foldl (deletedStep P X) ft).except = ft.except := by
  induction C generalizing ft with
  | nil => exact ⟨rfl, rfl, rfl⟩
  | cons e rest ih =>
    rw [List.foldl_cons]
    rcases ih (deletedStep P X ft e) with ⟨h1, h2, h3⟩
    rcases deletedStep_others P X ft e with ⟨g1, g2, g3⟩
    exact ⟨h1.trans g1, h2.trans g2, h3.trans g3⟩

theorem deletedStep_deleted_ne (P X : FileList) (ft : FileTree) (e : String × String)
    (k : String) (h : ¬ (k = e.1)) :
    get? (deletedStep P X ft e).deleted k = get? ft.deleted k := by
  unfold deletedStep
  split_ifs <;> simp [get?_objInsert, h]

theorem deleted_foldl_frame (P X : FileList) (C : List (String × String))
    (ft : FileTree) (k : String) (h : ¬ k ∈ keys C) :
    get? (C.foldl (deletedStep P X) ft).deleted k = get? ft.deleted k := by
  induction C generalizing ft with
  | nil => rfl
  | cons e rest ih =>
    rw [keys, List.map_cons, List.mem_cons] at h
    push_neg at h
    rw [List.foldl_cons, ih _ (by simpa [keys] using h.2), deletedStep_deleted_ne _ _ _ _ _ h.1]

theorem deleted_foldl_get (P X : FileList) (C : List (String × String))
    (ft : FileTree) (k : String) (hC : (keys C).Nodup)
    (hsub : ∀ e ∈ C, get? P e.1 = some e.2) :
    get? (C.foldl (deletedStep P X) ft).deleted k =
      if k ∈ keys C ∧ hasKey X k = false then get? P k else get? ft.deleted k := by
  induction C generalizing ft with
  | nil => simp [keys]
  | cons e rest ih =>
    rw [keys, List.map_cons, List.nodup_cons] at hC
    have hsubr : ∀ x ∈ rest, get? P x.1 = some x.2 := fun x hx => hsub x (List.mem_cons_of_mem e hx)
    rw [List.foldl_cons]
    by_cases hek : k = e.1
    · have hkr : ¬ k ∈ keys rest := hek ▸ hC.1
      rw [deleted_foldl_frame P X rest _ k hkr]
      have hPk : get? P k = some e.2 := hek ▸ hsub e (List.mem_cons_self e rest)
      unfold deletedStep
      by_cases hx : hasKey X e.1 = true
      · rw [if_neg (by simpa using hx)]
        have : ¬ (k ∈ keys (e :: rest) ∧ hasKey X k = false) := by
          intro hh
          rw [hek] at hh
          rw [hx] at hh
          exact absurd hh.2 (by simp)
        rw [if_neg this]
      · rw [if_pos (by simpa using hx)]
        show get? (objInsert ft.deleted e.1 ((get? P e.1).getD "")) k = _
        rw [get?_objInsert, if_pos hek]
        have hc : k ∈ keys (e :: rest) ∧ hasKey X k = false := by
          refine ⟨?_, ?_⟩
          · rw [keys, List.map_cons, hek]; exact List.mem_cons_self _ _
          · rw [hek]; simpa using hx
        rw [if_pos hc, ← hek, hPk]
        rfl
    · rw [ih _ hC.2 hsubr]
      have hmem : (k ∈ keys (e :: rest)) ↔ (k ∈ keys rest) := by
        rw [keys, List.map_cons, List.mem_cons]
        exact ⟨fun h => h.resolve_left hek, Or.inr⟩
      by_cases hc : k ∈ keys rest ∧ hasKey X k = false
      · rw [if_pos hc, if_pos ⟨hmem.mpr hc.1, hc.2⟩]
      · rw [if_neg hc, if_neg (fun hh => hc ⟨hmem.mp hh.1, hh.2⟩)]
        exact deletedStep_deleted_ne P X ft e k hek

/-! Characterization of comparePreviousFileTree, per key. Throughout,
`P` is the (filtered) previous FileList, `E` the (filtered) previous
except FileList and `X` the current FileList of the side at hand. -/

theorem cpf_added_get (P E X : FileList) (k : String) (hX : (keys X).Nodup) :
    get? (comparePreviousFileTree P E X).added k =
      if hasKey X k = true ∧ get? P k ≠ get? X k ∧ truthy (get? P k) = false
      then get? X k else none := by
  unfold comparePreviousFileTree
  rcases deleted_foldl_others P X P
    ((keys E).foldl exceptMoveStep (X.foldl (classifyStep P X)
      { added := [], deleted := [], modified := [],
        except := checkExistKey E X })) with ⟨h1, _, _⟩
  rw [h1, move_foldl_added,
    classify_foldl_added_get P X X _ k hX (fun e he => get?_of_mem_nodup X e.1 e.2 hX he)]
  by_cases hc : hasKey X k = true ∧ get? P k ≠ get? X k ∧ truthy (get? P k) = false
  · rw [if_pos ⟨(hasKey_iff_mem_keys X k).mp hc.1, hc.2⟩, if_pos hc]
  · rw [if_neg (fun hh => hc ⟨(hasKey_iff_mem_keys X k).mpr hh.1, hh.2⟩), if_neg hc]
    rfl

theorem cpf_modified_get (P E X : FileList) (k : String)
    (hX : (keys X).Nodup) (hE : (keys E).Nodup) :
    get? (comparePreviousFileTree P E X).modified k =
      if hasKey X k = true ∧ get? P k ≠ get? X k ∧ truthy (get? P k) = true ∧
          hasKey E k = false
      then get? X k else none := by
  unfold comparePreviousFileTree
  set ft1 : FileTree := X.foldl (classifyStep P X)
    { added := [], deleted := [], modified := [], except := checkExistKey E X } with hft1
  rcases deleted_foldl_others P X P ((keys E).foldl exceptMoveStep ft1) with ⟨_, h2, _⟩
  rw [h2, move_foldl_modified_get (keys E) _ k hE]
  have hm : get? ft1.modified k =
      if k ∈ keys X ∧ get? P k ≠ get? X k ∧ truthy (get? P k) = true
      then get? X k else none := by
    rw [hft1, classify_foldl_modified_get P X X _ k hX
      (fun e he => get?_of_mem_nodup X e.1 e.2 hX he)]
    split_ifs <;> rfl
  by_cases hmc : hasKey X k = true ∧ get? P k ≠ get? X k ∧ truthy (get? P k) = true
  · have hm' : get? ft1.modified k = get? X k := by
      rw [hm, if_pos ⟨(hasKey_iff_mem_keys X k).mp hmc.1, hmc.2⟩]
    have hhk : hasKey ft1.modified k = true := by
      rw [hasKey_eq_isSome_get?, hm', ← hasKey_eq_isSome_get?]
      exact hmc.1
    by_cases hEk : hasKey E k = true
    · have hnc : ¬ (hasKey X k = true ∧ get? P k ≠ get? X k ∧
          truthy (get? P k) = true ∧ hasKey E k = false) := by
        intro hh
        rw [hEk] at hh
        exact absurd hh.2.2.2 (by simp)
      rw [if_pos ⟨(hasKey_iff_mem_keys E k).mp hEk, hhk⟩, if_neg hnc]
    · have hc1 : ¬ (k ∈ keys E ∧ hasKey ft1.modified k = true) :=
        fun hh => hEk ((hasKey_iff_mem_keys E k).mpr hh.1)
      rw [if_neg hc1, hm',
        if_pos ⟨hmc.1, hmc.2.1, hmc.2.2, by simpa using hEk⟩]
  · have hm' : get? ft1.modified k = none := by
      rw [hm, if_neg (fun hh => hmc ⟨(hasKey_iff_mem_keys X k).mpr hh.1, hh.2⟩)]
    have hhk : hasKey ft1.modified k = false := by
      rw [hasKey_eq_isSome_get?, hm']
      rfl
    have hc1 : ¬ (k ∈ keys E ∧ hasKey ft1.modified k = true) := by
      intro hh
      rw [hhk] at hh
      exact absurd hh.2 (by simp)
    have hnc : ¬ (hasKey X k = true ∧ get? P k ≠ get? X k ∧
        truthy (get? P k) = true ∧ hasKey E k = false) :=
      fun hh => hmc ⟨hh.1, hh.2.1, hh.2.2.1⟩
    rw [if_neg hc1, hm', if_neg hnc]

theorem cpf_except_get (P E X : FileList) (k : String)
    (hX : (keys X).Nodup) (hE : (keys E).Nodup) :
    get? (comparePreviousFileTree P E X).except k =
      if hasKey X k = true ∧ get? P k ≠ get? X k ∧ truthy (get? P k) = true ∧
          hasKey E k = true
      then get? X k
      else if hasKey X k = true then get? E k else none := by
  unfold comparePreviousFileTree
  set ft1 : FileTree := X.foldl (classifyStep P X)
    { added := [], deleted := [], modified := [], except := checkExistKey E X } with hft1
  rcases deleted_foldl_others P X P ((keys E).foldl exceptMoveStep ft1) with ⟨_, _, h3⟩
  rw [h3, move_foldl_except_get (keys E) _ k hE]
  have hm : get? ft1.modified k =
      if k ∈ keys X ∧ get? P k ≠ get? X k ∧ truthy (get? P k) = true
      then get? X k else none := by
    rw [hft1, classify_foldl_modified_get P X X _ k hX
      (fun e he => get?_of_mem_nodup X e.1 e.2 hX he)]
    split_ifs <;> rfl
  have hex : get? ft1.except k = if hasKey X k = true then get? E k else none := by
    rw [hft1, classify_foldl_except]
    exact get?_checkExistKey E X k
  by_cases hmc : hasKey X k = true ∧ get? P k ≠ get? X k ∧ truthy (get? P k) = true
  · have hm' : get? ft1.modified k = get? X k := by
      rw [hm, if_pos ⟨(hasKey_iff_mem_keys X k).mp hmc.1, hmc.2⟩]
    have hhk : hasKey ft1.modified k = true := by
      rw [hasKey_eq_isSome_get?, hm', ← hasKey_eq_isSome_get?]
      exact hmc.1
    by_cases hEk : hasKey E k = true
    · rw [if_pos ⟨(hasKey_iff_mem_keys E k).mp hEk, hhk⟩, hm',
        if_pos ⟨hmc.1, hmc.2.1, hmc.2.2, hEk⟩]
    · have hc1 : ¬ (k ∈ keys E ∧ hasKey ft1.modified k = true) :=
        fun hh => hEk ((hasKey_iff_mem_keys E k).mpr hh.1)
      have hnc : ¬ (hasKey X k = true ∧ get? P k ≠ get? X k ∧
          truthy (get? P k) = true ∧ hasKey E k = true) :=
        fun hh => hEk hh.2.2.2
      rw [if_neg hc1, hex, if_neg hnc]
  · have hm' : get? ft1.modified k = none := by
      rw [hm, if_neg (fun hh => hmc ⟨(hasKey_iff_mem_keys X k).mpr hh.1, hh.2⟩)]
    have hhk : hasKey ft1.modified k = false := by
      rw [hasKey_eq_isSome_get?, hm']
      rfl
    have hc1 : ¬ (k ∈ keys E ∧ hasKey ft1.modified k = true) := by
      intro hh
      rw [hhk] at hh
      exact absurd hh.2 (by simp)
    have hnc : ¬ (hasKey X k = true ∧ get? P k ≠ get? X k ∧
        truthy (get? P k) = true ∧ hasKey E k = true) :=
      fun hh => hmc ⟨hh.1, hh.2.1, hh.2.2.1⟩
    rw [if_neg hc1, hex, if_neg hnc]

theorem cpf_deleted_get (P E X : FileList) (k : String) (hP : (keys P).Nodup) :
    get? (comparePreviousFileTree P E X).deleted k =
      if hasKey P k = true ∧ hasKey X k = false then get? P k else none := by
  unfold comparePreviousFileTree
  rw [deleted_foldl_get P X P _ k hP (fun e he => get?_of_mem_nodup P e.1 e.2 hP he)]
  have hdel : get? ((keys E).foldl exceptMoveStep (X.foldl (classifyStep P X)
      { added := [], deleted := [], modified := [],
        except := checkExistKey E X }) : FileTree).deleted k = none := by
    rw [move_foldl_deleted, classify_foldl_deleted]
    rfl
  by_cases hc : hasKey P k = true ∧ hasKey X k = false
  · rw [if_pos ⟨(hasKey_iff_mem_keys P k).mp hc.1, hc.2⟩, if_pos hc]
  · rw [if_neg (fun hh => hc ⟨(hasKey_iff_mem_keys P k).mpr hh.1, hh.2⟩), if_neg hc, hdel]

/-! Key uniqueness of the comparePreviousFileTree output categories. -/

theorem classifyStep_nodup_added (P X : FileList) (ft : FileTree) (e : String × String)
    (h : (keys ft.added).Nodup) : (keys (classifyStep P X ft e).added).Nodup := by
  unfold classifyStep
  split_ifs <;> first
    | exact h
    | exact nodupKeys_objInsert _ _ _ h

theorem classifyStep_nodup_modified (P X : FileList) (ft : FileTree) (e : String × String)
    (h : (keys ft.modified).Nodup) : (keys (classifyStep P X ft e).modified).Nodup := by
  unfold classifyStep
  split_ifs <;> first
    | exact h
    | exact nodupKeys_objInsert _ _ _ h

theorem classify_foldl_nodup_added (P X : FileList) (C : List (String × String))
    (ft : FileTree) (h : (keys ft.added).Nodup) :
    (keys ((C.foldl (classifyStep P X) ft)).added).Nodup := by
  induction C generalizing ft with
  | nil => exact h
  | cons e rest ih => exact ih _ (classifyStep_nodup_added P X ft e h)

theorem classify_foldl_nodup_modified (P X : FileList) (C : List (String × String))
    (ft : FileTree) (h : (keys ft.modified).Nodup) :
    (keys ((C.foldl (classifyStep P X) ft)).modified).Nodup := by
  induction C generalizing ft with
  | nil => exact h
  | cons e rest ih => exact ih _ (classifyStep_nodup_modified P X ft e h)

theorem exceptMoveStep_nodup_except (ft : FileTree) (x : String)
    (h : (keys ft.except).Nodup) : (keys (exceptMoveStep ft x).except).Nodup := by
  unfold exceptMoveStep
  split_ifs <;> first
    | exact h
    | exact nodupKeys_objInsert _ _ _ h

theorem move_foldl_nodup_except (K : List String) (ft : FileTree)
    (h : (keys ft.except).Nodup) : (keys (K.foldl exceptMoveStep ft).except).Nodup := by
  induction K generalizing ft with
  | nil => exact h
  | cons x rest ih => exact ih _ (exceptMoveStep_nodup_except ft x h)

theorem deletedStep_nodup_deleted (P X : FileList) (ft : FileTree) (e : String × String)
    (h : (keys ft.deleted).Nodup) : (keys (deletedStep P X ft e).deleted).Nodup := by
  unfold deletedStep
  split_ifs <;> first
    | exact h
    | exact nodupKeys_objInsert _ _ _ h

theorem deleted_foldl_nodup (P X : FileList) (C : List (String × String))
    (ft : FileTree) (h : (keys ft.deleted).Nodup) :
    (keys ((C.foldl (deletedStep P X) ft)).deleted).Nodup := by
  induction C generalizing ft with
  | nil => exact h
  | cons e rest ih => exact ih _ (deletedStep_nodup_deleted P X ft e h)

theorem cpf_nodup_added (P E X : FileList) :
    (keys (comparePreviousFileTree P E X).added).Nodup := by
  unfold comparePreviousFileTree
  rcases deleted_foldl_others P X P
    ((keys E).foldl exceptMoveStep (X.foldl (classifyStep P X)
      { added := [], deleted := [], modified := [],
        except := checkExistKey E X })) with ⟨h1, _, _⟩
  rw [h1, move_foldl_added]
  exact classify_foldl_nodup_added P X X _ List.nodup_nil

theorem cpf_nodup_modified (P E X : FileList) :
    (keys (comparePreviousFileTree P E X).modified).Nodup := by
  unfold comparePreviousFileTree
  rcases deleted_foldl_others P X P
    ((keys E).foldl exceptMoveStep (X.foldl (classifyStep P X)
      { added := [], deleted := [], modified := [],
        except := checkExistKey E X })) with ⟨_, h2, _⟩
  rw [h2]
  have hbase := classify_foldl_nodup_modified P X X
    { added := [], deleted := [], modified := [], except := checkExistKey E X }
    List.nodup_nil
  -- the move loop only deletes keys from modified
  generalize (X.foldl (classifyStep P X)
    { added := [], deleted := [], modified := [], except := checkExistKey E X }) = ft at hbase ⊢
  induction (keys E) generalizing ft with
  | nil => exact hbase
  | cons x rest ih =>
    rw [List.foldl_cons]
    apply ih
    unfold exceptMoveStep
    split_ifs <;> first
      | exact hbase
      | exact nodupKeys_objDelete _ _ hbase

theorem cpf_nodup_except (P E X : FileList) (hE : (keys E).Nodup) :
    (keys (comparePreviousFileTree P E X).except).Nodup := by
  unfold comparePreviousFileTree
  rcases deleted_foldl_others P X P
    ((keys E).foldl exceptMoveStep (X.foldl (classifyStep P X)
      { added := [], deleted := [], modified := [],
        except := checkExistKey E X })) with ⟨_, _, h3⟩
  rw [h3]
  apply move_foldl_nodup_except
  rw [classify_foldl_except]
  exact nodupKeys_checkExistKey E X hE

theorem cpf_nodup_deleted (P E X : FileList) :
    (keys (comparePreviousFileTree P E X).deleted).Nodup := by
  unfold comparePreviousFileTree
  apply deleted_foldl_nodup
  rw [move_foldl_deleted, classify_foldl_deleted]
  exact List.nodup_nil

/-! ### Per-key characterization of the three compareFileTreesExcept loops -/

theorem exceptStep1_lists (st : FileTree × FileTree) (f : String) :
    (exceptStep1 st f).1.added = st.1.added ∧ (exceptStep1 st f).2.added = st.2.added ∧
    (exceptStep1 st f).1.deleted = st.1.deleted ∧ (exceptStep1 st f).2.deleted = st.2.deleted := by
  unfold exceptStep1
  split_ifs <;> exact ⟨rfl, rfl, rfl, rfl⟩

theorem step1_foldl_lists (K : List String) (st : FileTree × FileTree) :
    (K.foldl exceptStep1 st).1.added = st.1.added ∧
    (K.foldl exceptStep1 st).2.added = st.2.added ∧
    (K.foldl exceptStep1 st).1.deleted = st.1.deleted ∧
    (K.foldl exceptStep1 st).2.deleted = st.2.deleted := by
  induction K generalizing st with
  | nil => exact ⟨rfl, rfl, rfl, rfl⟩
  | cons x rest ih =>
    rw [List.foldl_cons]
    rcases ih (exceptStep1 st x) with ⟨h1, h2, h3, h4⟩
    rcases exceptStep1_lists st x with ⟨g1, g2, g3, g4⟩
    exact ⟨h1.trans g1, h2.trans g2, h3.trans g3, h4.trans g4⟩

theorem exceptStep1_ne (st : FileTree × FileTree) (x k : String) (h : ¬ k = x) :
    get? (exceptStep1 st x).1.modified k = get? st.1.modified k ∧
    get? (exceptStep1 st x).2.modified k = get? st.2.modified k ∧
    get? (exceptStep1 st x).1.except k = get? st.1.except k ∧
    get? (exceptStep1 st x).2.except k = get? st.2.except k := by
  unfold exceptStep1
  split_ifs <;> simp [get?_objDelete, get?_objInsert, h]

theorem step1_foldl_frame (K : List String) (st : FileTree × FileTree) (k : String)
    (h : ¬ k ∈ K) :
    get? (K.foldl exceptStep1 st).1.modified k = get? st.1.modified k ∧
    get? (K.foldl exceptStep1 st).2.modified k = get? st.2.modified k ∧
    get? (K.foldl exceptStep1 st).1.except k = get? st.1.except k ∧
    get? (K.foldl exceptStep1 st).2.except k = get? st.2.except k := by
  induction K generalizing st with
  | nil => exact ⟨rfl, rfl, rfl, rfl⟩
  | cons x rest ih =>
    rw [List.mem_cons] at h
    push_neg at h
    rw [List.foldl_cons]
    rcases ih (exceptStep1 st x) h.2 with ⟨h1, h2, h3, h4⟩
    rcases exceptStep1_ne st x k h.1 with ⟨g1, g2, g3, g4⟩
    exact ⟨h1.trans g1, h2.trans g2, h3.trans g3, h4.trans g4⟩

theorem step1_foldl_get (K : List String) (st : FileTree × FileTree) (k : String)
    (hK : K.Nodup) :
    get? (K.foldl exceptStep1 st).1.modified k =
      (if k ∈ K ∧ truthy (get? st.2.modified k) = true then none else get? st.1.modified k) ∧
    get? (K.foldl exceptStep1 st).2.modified k =
      (if k ∈ K ∧ truthy (get? st.2.modified k) = true then none else get? st.2.modified k) ∧
    get? (K.foldl exceptStep1 st).1.except k =
      (if k ∈ K ∧ truthy (get? st.2.modified k) = true
       then some ((get? st.1.modified k).getD "") else get? st.1.except k) ∧
    get? (K.foldl exceptStep1 st).2.except k =
      (if k ∈ K ∧ truthy (get? st.2.modified k) = true
       then some ((get? st.2.modified k).getD "") else get? st.2.except k) := by
  induction K generalizing st with
  | nil => simp
  | cons x rest ih =>
    rw [List.nodup_cons] at hK
    rw [List.foldl_cons]
    by_cases hek : k = x
    · have hkr : ¬ k ∈ rest := hek ▸ hK.1
      rcases step1_foldl_frame rest (exceptStep1 st x) k hkr with ⟨h1, h2, h3, h4⟩
      rw [h1, h2, h3, h4]
      by_cases c1 : truthy (get? st.2.modified k) = true
      · have hc : k ∈ x :: rest ∧ truthy (get? st.2.modified k) = true :=
        ⟨List.mem_cons.mpr (Or.inl hek), c1⟩
        unfold exceptStep1
        rw [if_pos (show truthy (get? st.2.modified x) = true from hek ▸ c1)]
        refine ⟨?_, ?_, ?_, ?_⟩
        · show get? (objDelete st.1.modified x) k = _
          rw [get?_objDelete, if_pos hek, if_pos hc]
        · show get? (objDelete st.2.modified x) k = _
          rw [get?_objDelete, if_pos hek, if_pos hc]
        · show get? (objInsert st.1.except x ((get? st.1.modified x).getD "")) k = _
          rw [get?_objInsert, if_pos hek, if_pos hc, hek]
        · show get? (objInsert st.2.except x ((get? st.2.modified x).getD "")) k = _
          rw [get?_objInsert, if_pos hek, if_pos hc, hek]
      · have hnc : ¬ (k ∈ x :: rest ∧ truthy (get? st.2.modified k) = true) :=
          fun hh => c1 hh.2
        unfold exceptStep1
        rw [if_neg (show ¬ truthy (get? st.2.modified x) = true from hek ▸ c1)]
        rw [if_neg hnc, if_neg hnc, if_neg hnc, if_neg hnc]
        exact ⟨rfl, rfl, rfl, rfl⟩
    · rcases exceptStep1_ne st x k hek with ⟨g1, g2, g3, g4⟩
      rcases ih (exceptStep1 st x) hK.2 with ⟨h1, h2, h3, h4⟩
      rw [h1, h2, h3, h4, g1, g2, g3, g4]
      have hmem : (k ∈ x :: rest) ↔ (k ∈ rest) :=
        ⟨fun h => (List.mem_cons.mp h).resolve_left hek, List.mem_cons_of_mem x⟩
      by_cases hc : k ∈ rest ∧ truthy (get? st.2.modified k) = true
      · rw [if_pos hc, if_pos hc, if_pos hc, if_pos hc,
          if_pos ⟨hmem.mpr hc.1, hc.2⟩, if_pos ⟨hmem.mpr hc.1, hc.2⟩,
          if_pos ⟨hmem.mpr hc.1, hc.2⟩, if_pos ⟨hmem.mpr hc.1, hc.2⟩]
        exact ⟨rfl, rfl, rfl, rfl⟩
      · have hnc2 : ¬ (k ∈ x :: rest ∧ truthy (get? st.2.modified k) = true) :=
          fun hh => hc ⟨hmem.mp hh.1, hh.2⟩
        rw [if_neg hc, if_neg hc, if_neg hc, if_neg hc,
          if_neg hnc2, if_neg hnc2, if_neg hnc2, if_neg hnc2]
        exact ⟨rfl, rfl, rfl, rfl⟩

theorem exceptStep2_lists (st : FileTree × FileTree) (f : String) :
    (exceptStep2 st f).1.modified = st.1.modified ∧ (exceptStep2 st f).2.modified = st.2.modified ∧
    (exceptStep2 st f).1.deleted = st.1.deleted ∧ (exceptStep2 st f).2.deleted = st.2.deleted := by
  unfold exceptStep2
  split_ifs <;> exact ⟨rfl, rfl, rfl, rfl⟩

theorem step2_foldl_lists (K : List String) (st : FileTree × FileTree) :
    (K.foldl exceptStep2 st).1.modified = st.1.modified ∧
    (K.foldl exceptStep2 st).2.modified = st.2.modified ∧
    (K.foldl exceptStep2 st).1.deleted = st.1.deleted ∧
    (K.foldl exceptStep2 st).2.deleted = st.2.deleted := by
  induction K generalizing st with
  | nil => exact ⟨rfl, rfl, rfl, rfl⟩
  | cons x rest ih =>
    rw [List.foldl_cons]
    rcases ih (exceptStep2 st x) with ⟨h1, h2, h3, h4⟩
    rcases exceptStep2_lists st x with ⟨g1, g2, g3, g4⟩
    exact ⟨h1.trans g1, h2.trans g2, h3.trans g3, h4.trans g4⟩

theorem exceptStep2_ne (st : FileTree × FileTree) (x k : String) (h : ¬ k = x) :
    get? (exceptStep2 st x).1.added k = get? st.1.added k ∧
    get? (exceptStep2 st x).2.added k = get? st.2.added k ∧
    get? (exceptStep2 st x).1.except k = get? st.1.except k ∧
    get? (exceptStep2 st x).2.except k = get? st.2.except k := by
  unfold exceptStep2
  split_ifs <;> simp [get?_objDelete, get?_objInsert, h]

theorem step2_foldl_frame (K : List String) (st : FileTree × FileTree) (k : String)
    (h : ¬ k ∈ K) :
    get? (K.foldl exceptStep2 st).1.added k = get? st.1.added k ∧
    get? (K.foldl exceptStep2 st).2.added k = get? st.2.added k ∧
    get? (K.foldl exceptStep2 st).1.except k = get? st.1.except k ∧
    get? (K.foldl exceptStep2 st).2.except k = get? st.2.except k := by
  induction K generalizing st with
  | nil => exact ⟨rfl, rfl, rfl, rfl⟩
  | cons x rest ih =>
    rw [List.mem_cons] at h
    push_neg at h
    rw [List.foldl_cons]
    rcases ih (exceptStep2 st x) h.2 with ⟨h1, h2, h3, h4⟩
    rcases exceptStep2_ne st x k h.1 with ⟨g1, g2, g3, g4⟩
    exact ⟨h1.trans g1, h2.trans g2, h3.trans g3, h4.trans g4⟩

theorem step2_foldl_get (K : List String) (st : FileTree × FileTree) (k : String)
    (hK : K.Nodup) :
    get? (K.foldl exceptStep2 st).1.added k =
      (if k ∈ K ∧ (get? st.2.added k = get? st.1.added k ∨ truthy (get? st.2.added k) = true)
       then none else get? st.1.added k) ∧
    get? (K.foldl exceptStep2 st).2.added k =
      (if k ∈ K ∧ (get? st.2.added k = get? st.1.added k ∨ truthy (get? st.2.added k) = true)
       then none else get? st.2.added k) ∧
    get? (K.foldl exceptStep2 st).1.except k =
      (if k ∈ K ∧ ¬ (get? st.2.added k = get? st.1.added k) ∧ truthy (get? st.2.added k) = true
       then some ((get? st.1.added k).getD "") else get? st.1.except k) ∧
    get? (K.foldl exceptStep2 st).2.except k =
      (if k ∈ K ∧ ¬ (get? st.2.added k = get? st.1.added k) ∧ truthy (get? st.2.added k) = true
       then some ((get? st.2.added k).getD "") else get? st.2.except k) := by
  induction K generalizing st with
  | nil => simp
  | cons x rest ih =>
    rw [List.nodup_cons] at hK
    rw [List.foldl_cons]
    by_cases hek : k = x
    · have hkr : ¬ k ∈ rest := hek ▸ hK.1
      rcases step2_foldl_frame rest (exceptStep2 st x) k hkr with ⟨h1, h2, h3, h4⟩
      rw [h1, h2, h3, h4]
      have hmm : k ∈ x :: rest := List.mem_cons.mpr (Or.inl hek)
      by_cases ceq : get? st.2.added k = get? st.1.added k
      · have hca : k ∈ x :: rest ∧
            (get? st.2.added k = get? st.1.added k ∨ truthy (get? st.2.added k) = true) :=
          ⟨hmm, Or.inl ceq⟩
        have hnce : ¬ (k ∈ x :: rest ∧ ¬ (get? st.2.added k = get? st.1.added k) ∧
            truthy (get? st.2.added k) = true) := fun hh => hh.2.1 ceq
        unfold exceptStep2
        rw [if_pos (show get? st.2.added x = get? st.1.added x from hek ▸ ceq)]
        refine ⟨?_, ?_, ?_, ?_⟩
        · show get? (objDelete st.1.added x) k = _
          rw [get?_objDelete, if_pos hek, if_pos hca]
        · show get? (objDelete st.2.added x) k = _
          rw [get?_objDelete, if_pos hek, if_pos hca]
        · rw [if_neg hnce]
        · rw [if_neg hnce]
      · by_cases ctr : truthy (get? st.2.added k) = true
        · have hca : k ∈ x :: rest ∧
              (get? st.2.added k = get? st.1.added k ∨ truthy (get? st.2.added k) = true) :=
            ⟨hmm, Or.inr ctr⟩
          have hce : k ∈ x :: rest ∧ ¬ (get? st.2.added k = get? st.1.added k) ∧
              truthy (get? st.2.added k) = true := ⟨hmm, ceq, ctr⟩
          unfold exceptStep2
          rw [if_neg (show ¬ (get? st.2.added x = get? st.1.added x) from hek ▸ ceq),
            if_pos (show truthy (get? st.2.added x) = true from hek ▸ ctr)]
          refine ⟨?_, ?_, ?_, ?_⟩
          · show get? (objDelete st.1.added x) k = _
            rw [get?_objDelete, if_pos hek, if_pos hca]
          · show get? (objDelete st.2.added x) k = _
            rw [get?_objDelete, if_pos hek, if_pos hca]
          · show get? (objInsert st.1.except x ((get? st.1.added x).getD "")) k = _
            rw [get?_objInsert, if_pos hek, if_pos hce, hek]
          · show get? (objInsert st.2.except x ((get? st.2.added x).getD "")) k = _
            rw [get?_objInsert, if_pos hek, if_pos hce, hek]
        · have hnca : ¬ (k ∈ x :: rest ∧
              (get? st.2.added k = get? st.1.added k ∨ truthy (get? st.2.added k) = true)) :=
            fun hh => hh.2.elim ceq ctr
          have hnce : ¬ (k ∈ x :: rest ∧ ¬ (get? st.2.added k = get? st.1.added k) ∧
              truthy (get? st.2.added k) = true) := fun hh => ctr hh.2.2
          unfold exceptStep2
          rw [if_neg (show ¬ (get? st.2.added x = get? st.1.added x) from hek ▸ ceq),
            if_neg (show ¬ truthy (get? st.2.added x) = true from hek ▸ ctr)]
          rw [if_neg hnca, if_neg hnca, if_neg hnce, if_neg hnce]
          exact ⟨rfl, rfl, rfl, rfl⟩
    · rcases exceptStep2_ne st x k hek with ⟨g1, g2, g3, g4⟩
      rcases ih (exceptStep2 st x) hK.2 with ⟨h1, h2, h3, h4⟩
      rw [h1, h2, h3, h4, g1, g2, g3, g4]
      have hmem : (k ∈ x :: rest) ↔ (k ∈ rest) :=
        ⟨fun h => (List.mem_cons.mp h).resolve_left hek, List.mem_cons_of_mem x⟩
      by_cases hca : k ∈ rest ∧
          (get? st.2.added k = get? st.1.added k ∨ truthy (get? st.2.added k) = true)
      · rw [if_pos hca, if_pos hca, if_pos ⟨hmem.mpr hca.1, hca.2⟩,
          if_pos ⟨hmem.mpr hca.1, hca.2⟩]
        refine ⟨rfl, rfl, ?_, ?_⟩ <;>
        · by_cases hce : k ∈ rest ∧ ¬ (get? st.2.added k = get? st.1.added k) ∧
              truthy (get? st.2.added k) = true
          · rw [if_pos hce, if_pos ⟨hmem.mpr hce.1, hce.2⟩]
          · rw [if_neg hce, if_neg (fun hh => hce ⟨hmem.mp hh.1, hh.2⟩)]
      · have hnca : ¬ (k ∈ x :: rest ∧
            (get? st.2.added k = get? st.1.added k ∨ truthy (get? st.2.added k) = true)) :=
          fun hh => hca ⟨hmem.mp hh.1, hh.2⟩
        have hnce : ¬ (k ∈ rest ∧ ¬ (get? st.2.added k = get? st.1.added k) ∧
            truthy (get? st.2.added k) = true) :=
          fun hh => hca ⟨hh.1, Or.inr hh.2.2⟩
        have hnce2 : ¬ (k ∈ x :: rest ∧ ¬ (get? st.2.added k = get? st.1.added k) ∧
            truthy (get? st.2.added k) = true) :=
          fun hh => hnce ⟨hmem.mp hh.1, hh.2⟩
        rw [if_neg hca, if_neg hca, if_neg hnca, if_neg hnca,
          if_neg hnce, if_neg hnce, if_neg hnce2, if_neg hnce2]
        exact ⟨rfl, rfl, rfl, rfl⟩

theorem exceptStep3_lists (st : FileTree × FileTree) (f : String) :
    (exceptStep3 st f).1.added = st.1.added ∧ (exceptStep3 st f).2.added = st.2.added ∧
    (exceptStep3 st f).1.modified = st.1.modified ∧ (exceptStep3 st f).2.modified = st.2.modified ∧
    (exceptStep3 st f).1.deleted = st.1.deleted ∧ (exceptStep3 st f).2.deleted = st.2.deleted := by
  unfold exceptStep3
  split_ifs <;> exact ⟨rfl, rfl, rfl, rfl, rfl, rfl⟩

theorem step3_foldl_lists (K : List String) (st : FileTree × FileTree) :
    (K.foldl exceptStep3 st).1.added = st.1.added ∧
    (K.foldl exceptStep3 st).2.added = st.2.added ∧
    (K.foldl exceptStep3 st).1.modified = st.1.modified ∧
    (K.foldl exceptStep3 st).2.modified = st.2.modified ∧
    (K.foldl exceptStep3 st).1.deleted = st.1.deleted ∧
    (K.foldl exceptStep3 st).2.deleted = st.2.deleted := by
  induction K generalizing st with
  | nil => exact ⟨rfl, rfl, rfl, rfl, rfl, rfl⟩
  | cons x rest ih =>
    rw [List.foldl_cons]
    rcases ih (exceptStep3 st x) with ⟨h1, h2, h3, h4, h5, h6⟩
    rcases exceptStep3_lists st x with ⟨g1, g2, g3, g4, g5, g6⟩
    exact ⟨h1.trans g1, h2.trans g2, h3.trans g3, h4.trans g4, h5.trans g5, h6.trans g6⟩

theorem exceptStep3_ne (st : FileTree × FileTree) (x k : String) (h : ¬ k = x) :
    get? (exceptStep3 st x).1.except k = get? st.1.except k ∧
    get? (exceptStep3 st x).2.except k = get? st.2.except k := by
  unfold exceptStep3
  split_ifs <;> simp [get?_objDelete, h]

theorem step3_foldl_frame (K : List String) (st : FileTree × FileTree) (k : String)
    (h : ¬ k ∈ K) :
    get? (K.foldl exceptStep3 st).1.except k = get? st.1.except k ∧
    get? (K.foldl exceptStep3 st).2.except k = get? st.2.except k := by
  induction K generalizing st with
  | nil => exact ⟨rfl, rfl⟩
  | cons x rest ih =>
    rw [List.mem_cons] at h
    push_neg at h
    rw [List.foldl_cons]
    rcases ih (exceptStep3 st x) h.2 with ⟨h1, h2⟩
    rcases exceptStep3_ne st x k h.1 with ⟨g1, g2⟩
    exact ⟨h1.trans g1, h2.trans g2⟩

theorem step3_foldl_get (K : List String) (st : FileTree × FileTree) (k : String)
    (hK : K.Nodup) :
    get? (K.foldl exceptStep3 st).1.except k =
      (if k ∈ K ∧ get? st.2.except k = get? st.1.except k
       then none else get? st.1.except k) ∧
    get? (K.foldl exceptStep3 st).2.except k =
      (if k ∈ K ∧ get? st.2.except k = get? st.1.except k
       then none else get? st.2.except k) := by
  induction K generalizing st with
  | nil => simp
  | cons x rest ih =>
    rw [List.nodup_cons] at hK
    rw [List.foldl_cons]
    by_cases hek : k = x
    · have hkr : ¬ k ∈ rest := hek ▸ hK.1
      rcases step3_foldl_frame rest (exceptStep3 st x) k hkr with ⟨h1, h2⟩
      rw [h1, h2]
      have hmm : k ∈ x :: rest := List.mem_cons.mpr (Or.inl hek)
      by_cases c3 : get? st.2.except k = get? st.1.except k
      · have hc : k ∈ x :: rest ∧ get? st.2.except k = get? st.1.except k := ⟨hmm, c3⟩
        unfold exceptStep3
        rw [if_pos (show get? st.2.except x = get? st.1.except x from hek ▸ c3)]
        refine ⟨?_, ?_⟩
        · show get? (objDelete st.1.except x) k = _
          rw [get?_objDelete, if_pos hek, if_pos hc]
        · show get? (objDelete st.2.except x) k = _
          rw [get?_objDelete, if_pos hek, if_pos hc]
      · have hnc : ¬ (k ∈ x :: rest ∧ get? st.2.except k = get? st.1.except k) :=
          fun hh => c3 hh.2
        unfold exceptStep3
        rw [if_neg (show ¬ (get? st.2.except x = get? st.1.except x) from hek ▸ c3)]
        rw [if_neg hnc, if_neg hnc]
        exact ⟨rfl, rfl⟩
    · rcases exceptStep3_ne st x k hek with ⟨g1, g2⟩
      rcases ih (exceptStep3 st x) hK.2 with ⟨h1, h2⟩
      rw [h1, h2, g1, g2]
      have hmem : (k ∈ x :: rest) ↔ (k ∈ rest) :=
        ⟨fun h => (List.mem_cons.mp h).resolve_left hek, List.mem_cons_of_mem x⟩
      by_cases hc : k ∈ rest ∧ get? st.2.except k = get? st.1.except k
      · rw [if_pos hc, if_pos hc, if_pos ⟨hmem.mpr hc.1, hc.2⟩, if_pos ⟨hmem.mpr hc.1, hc.2⟩]
        exact ⟨rfl, rfl⟩
      · have hnc : ¬ (k ∈ x :: rest ∧ get? st.2.except k = get? st.1.except k) :=
          fun hh => hc ⟨hmem.mp hh.1, hh.2⟩
        rw [if_neg hc, if_neg hc, if_neg hnc, if_neg hnc]
        exact ⟨rfl, rfl⟩

/-! Key uniqueness of the local except list through steps 1 and 2 (the
third loop iterates over it, so its key list must be duplicate-free). -/

theorem exceptStep1_nodup_except2 (st : FileTree × FileTree) (x : String)
    (h : (keys st.2.except).Nodup) : (keys (exceptStep1 st x).2.except).Nodup := by
  unfold exceptStep1
  split_ifs <;> first
    | exact h
    | exact nodupKeys_objInsert _ _ _ h

theorem step1_foldl_nodup_except2 (K : List String) (st : FileTree × FileTree)
    (h : (keys st.2.except).Nodup) : (keys (K.foldl exceptStep1 st).2.except).Nodup := by
  induction K generalizing st with
  | nil => exact h
  | cons x rest ih => exact ih _ (exceptStep1_nodup_except2 st x h)

theorem exceptStep2_nodup_except2 (st : FileTree × FileTree) (x : String)
    (h : (keys st.2.except).Nodup) : (keys (exceptStep2 st x).2.except).Nodup := by
  unfold exceptStep2
  split_ifs <;> first
    | exact h
    | exact nodupKeys_objInsert _ _ _ h

theorem step2_foldl_nodup_except2 (K : List String) (st : FileTree × FileTree)
    (h : (keys st.2.except).Nodup) : (keys (K.foldl exceptStep2 st).2.except).Nodup := by
  induction K generalizing st with
  | nil => exact h
  | cons x rest ih => exact ih _ (exceptStep2_nodup_except2 st x h)

/-! ### Composed per-key characterization of compareFileTreesExcept -/

theorem cfte_eq (r0 l0 : FileTree) :
    compareFileTreesExcept r0 l0 =
      (keys ((keys ((keys r0.modified).foldl exceptStep1 (r0, l0)).1.added).foldl exceptStep2
        ((keys r0.modified).foldl exceptStep1 (r0, l0))).2.except).foldl exceptStep3
        ((keys ((keys r0.modified).foldl exceptStep1 (r0, l0)).1.added).foldl exceptStep2
          ((keys r0.modified).foldl exceptStep1 (r0, l0))) := rfl

/-- Value of the remote except entry after the first loop of
compareFileTreesExcept, per key (reasoning helper). -/
def cfteE1r (r0 l0 : FileTree) (k : String) : Option String :=
  if hasKey r0.modified k = true ∧ truthy (get? l0.modified k) = true
  then some ((get? r0.modified k).getD "") else get? r0.except k

/-- Value of the local except entry after the first loop of
compareFileTreesExcept, per key (reasoning helper). -/
def cfteE1l (r0 l0 : FileTree) (k : String) : Option String :=
  if hasKey r0.modified k = true ∧ truthy (get? l0.modified k) = true
  then some ((get? l0.modified k).getD "") else get? l0.except k

/-- Value of the remote except entry after the second loop of
compareFileTreesExcept, per key (reasoning helper). -/
def cfteE2r (r0 l0 : FileTree) (k : String) : Option String :=
  if hasKey r0.added k = true ∧ ¬ (get? l0.added k = get? r0.added k) ∧
      truthy (get? l0.added k) = true
  then some ((get? r0.added k).getD "") else cfteE1r r0 l0 k

/-- Value of the local except entry after the second loop of
compareFileTreesExcept, per key (reasoning helper). -/
def cfteE2l (r0 l0 : FileTree) (k : String) : Option String :=
  if hasKey r0.added k = true ∧ ¬ (get? l0.added k = get? r0.added k) ∧
      truthy (get? l0.added k) = true
  then some ((get? l0.added k).getD "") else cfteE1l r0 l0 k

theorem cfte_deleted_lists (r0 l0 : FileTree) :
    (compareFileTreesExcept r0 l0).1.deleted = r0.deleted ∧
    (compareFileTreesExcept r0 l0).2.deleted = l0.deleted := by
  rw [cfte_eq]
  rcases step3_foldl_lists _ _ with ⟨_, _, _, _, h5, h6⟩
  rcases step2_foldl_lists (keys ((keys r0.modified).foldl exceptStep1 (r0, l0)).1.added)
    ((keys r0.modified).foldl exceptStep1 (r0, l0)) with ⟨_, _, g3, g4⟩
  rcases step1_foldl_lists (keys r0.modified) (r0, l0) with ⟨_, _, f3, f4⟩
  exact ⟨h5.trans (g3.trans f3), h6.trans (g4.trans f4)⟩

theorem cfte_modified_get (r0 l0 : FileTree) (k : String)
    (hrm : (keys r0.modified).Nodup) :
    get? (compareFileTreesExcept r0 l0).1.modified k =
      (if hasKey r0.modified k = true ∧ truthy (get? l0.modified k) = true
       then none else get? r0.modified k) ∧
    get? (compareFileTreesExcept r0 l0).2.modified k =
      (if hasKey r0.modified k = true ∧ truthy (get? l0.modified k) = true
       then none else get? l0.modified k) := by
  rw [cfte_eq]
  rcases step3_foldl_lists _ _ with ⟨_, _, h3, h4, _, _⟩
  rcases step2_foldl_lists (keys ((keys r0.modified).foldl exceptStep1 (r0, l0)).1.added)
    ((keys r0.modified).foldl exceptStep1 (r0, l0)) with ⟨g1, g2, _, _⟩
  rcases step1_foldl_get (keys r0.modified) (r0, l0) k hrm with ⟨f1, f2, _, _⟩
  rw [h3, h4, g1, g2, f1, f2]
  constructor
  · show (if k ∈ keys r0.modified ∧ truthy (get? l0.modified k) = true
        then none else get? r0.modified k) = _
    by_cases hc : k ∈ keys r0.modified ∧ truthy (get? l0.modified k) = true
    · rw [if_pos hc, if_pos ⟨(hasKey_iff_mem_keys _ _).mpr hc.1, hc.2⟩]
    · rw [if_neg hc, if_neg (fun hh => hc ⟨(hasKey_iff_mem_keys _ _).mp hh.1, hh.2⟩)]
  · show (if k ∈ keys r0.modified ∧ truthy (get? l0.modified k) = true
        then none else get? l0.modified k) = _
    by_cases hc : k ∈ keys r0.modified ∧ truthy (get? l0.modified k) = true
    · rw [if_pos hc, if_pos ⟨(hasKey_iff_mem_keys _ _).mpr hc.1, hc.2⟩]
    · rw [if_neg hc, if_neg (fun hh => hc ⟨(hasKey_iff_mem_keys _ _).mp hh.1, hh.2⟩)]

theorem cfte_added_get (r0 l0 : FileTree) (k : String)
    (hra : (keys r0.added).Nodup) :
    get? (compareFileTreesExcept r0 l0).1.added k =
      (if hasKey r0.added k = true ∧ (get? l0.added k = get? r0.added k ∨
          truthy (get? l0.added k) = true)
       then none else get? r0.added k) ∧
    get? (compareFileTreesExcept r0 l0).2.added k =
      (if hasKey r0.added k = true ∧ (get? l0.added k = get? r0.added k ∨
          truthy (get? l0.added k) = true)
       then none else get? l0.added k) := by
  rw [cfte_eq]
  rcases step3_foldl_lists _ _ with ⟨h1, h2, _, _, _, _⟩
  rcases step1_foldl_lists (keys r0.modified) (r0, l0) with ⟨f1, f2, _, _⟩
  have hK2 : keys ((keys r0.modified).foldl exceptStep1 (r0, l0)).1.added = keys r0.added := by
    rw [f1]
  rcases step2_foldl_get (keys ((keys r0.modified).foldl exceptStep1 (r0, l0)).1.added)
    ((keys r0.modified).foldl exceptStep1 (r0, l0)) k (by rw [hK2]; exact hra) with ⟨g1, g2, _, _⟩
  rw [h1, h2, g1, g2, hK2, f1, f2]
  constructor
  · show (if k ∈ keys r0.added ∧ (get? l0.added k = get? r0.added k ∨
        truthy (get? l0.added k) = true) then none else get? r0.added k) = _
    by_cases hc : k ∈ keys r0.added ∧ (get? l0.added k = get? r0.added k ∨
        truthy (get? l0.added k) = true)
    · rw [if_pos hc, if_pos ⟨(hasKey_iff_mem_keys _ _).mpr hc.1, hc.2⟩]
    · rw [if_neg hc, if_neg (fun hh => hc ⟨(hasKey_iff_mem_keys _ _).mp hh.1, hh.2⟩)]
  · show (if k ∈ keys r0.added ∧ (get? l0.added k = get? r0.added k ∨
        truthy (get? l0.added k) = true) then none else get? l0.added k) = _
    by_cases hc : k ∈ keys r0.added ∧ (get? l0.added k = get? r0.added k ∨
        truthy (get? l0.added k) = true)
    · rw [if_pos hc, if_pos ⟨(hasKey_iff_mem_keys _ _).mpr hc.1, hc.2⟩]
    · rw [if_neg hc, if_neg (fun hh => hc ⟨(hasKey_iff_mem_keys _ _).mp hh.1, hh.2⟩)]

theorem cfte_except_get (r0 l0 : FileTree) (k : String)
    (hrm : (keys r0.modified).Nodup) (hra : (keys r0.added).Nodup)
    (hle : (keys l0.except).Nodup) :
    get? (compareFileTreesExcept r0 l0).1.except k =
      (if (cfteE2l r0 l0 k).isSome = true ∧ cfteE2l r0 l0 k = cfteE2r r0 l0 k
       then none else cfteE2r r0 l0 k) ∧
    get? (compareFileTreesExcept r0 l0).2.except k =
      (if (cfteE2l r0 l0 k).isSome = true ∧ cfteE2l r0 l0 k = cfteE2r r0 l0 k
       then none else cfteE2l r0 l0 k) := by
  rw [cfte_eq]
  set s1 := (keys r0.modified).foldl exceptStep1 (r0, l0) with hs1
  set s2 := (keys s1.1.added).foldl exceptStep2 s1 with hs2
  have hadd1 : s1.1.added = r0.added := (step1_foldl_lists _ _).1
  have hadd2 : s1.2.added = l0.added := (step1_foldl_lists _ _).2.1
  have hE1r : get? s1.1.except k = cfteE1r r0 l0 k := by
    rcases step1_foldl_get (keys r0.modified) (r0, l0) k hrm with ⟨_, _, f3, _⟩
    rw [← hs1] at f3
    rw [f3]
    unfold cfteE1r
    by_cases hc : k ∈ keys r0.modified ∧ truthy (get? (r0, l0).2.modified k) = true
    · rw [if_pos hc, if_pos (show hasKey r0.modified k = true ∧
        truthy (get? l0.modified k) = true from ⟨(hasKey_iff_mem_keys _ _).mpr hc.1, hc.2⟩)]
    · rw [if_neg hc, if_neg (show ¬ (hasKey r0.modified k = true ∧
        truthy (get? l0.modified k) = true) from
        fun hh => hc ⟨(hasKey_iff_mem_keys _ _).mp hh.1, hh.2⟩)]
  have hE1l : get? s1.2.except k = cfteE1l r0 l0 k := by
    rcases step1_foldl_get (keys r0.modified) (r0, l0) k hrm with ⟨_, _, _, f4⟩
    rw [← hs1] at f4
    rw [f4]
    unfold cfteE1l
    by_cases hc : k ∈ keys r0.modified ∧ truthy (get? (r0, l0).2.modified k) = true
    · rw [if_pos hc, if_pos (show hasKey r0.modified k = true ∧
        truthy (get? l0.modified k) = true from ⟨(hasKey_iff_mem_keys _ _).mpr hc.1, hc.2⟩)]
    · rw [if_neg hc, if_neg (show ¬ (hasKey r0.modified k = true ∧
        truthy (get? l0.modified k) = true) from
        fun hh => hc ⟨(hasKey_iff_mem_keys _ _).mp hh.1, hh.2⟩)]
  have hE2r : get? s2.1.except k = cfteE2r r0 l0 k := by
    rcases step2_foldl_get (keys s1.1.added) s1 k (by rw [hadd1]; exact hra) with ⟨_, _, g3, _⟩
    rw [← hs2] at g3
    rw [g3, hadd1, hadd2, hE1r]
    unfold cfteE2r
    by_cases hc : k ∈ keys r0.added ∧ ¬ (get? l0.added k = get? r0.added k) ∧
        truthy (get? l0.added k) = true
    · rw [if_pos hc, if_pos (show hasKey r0.added k = true ∧
        ¬ (get? l0.added k = get? r0.added k) ∧ truthy (get? l0.added k) = true from
        ⟨(hasKey_iff_mem_keys _ _).mpr hc.1, hc.2⟩)]
    · rw [if_neg hc, if_neg (show ¬ (hasKey r0.added k = true ∧
        ¬ (get? l0.added k = get? r0.added k) ∧ truthy (get? l0.added k) = true) from
        fun hh => hc ⟨(hasKey_iff_mem_keys _ _).mp hh.1, hh.2⟩)]
  have hE2l : get? s2.2.except k = cfteE2l r0 l0 k := by
    rcases step2_foldl_get (keys s1.1.added) s1 k (by rw [hadd1]; exact hra) with ⟨_, _, _, g4⟩
    rw [← hs2] at g4
    rw [g4, hadd1, hadd2, hE1l]
    unfold cfteE2l
    by_cases hc : k ∈ keys r0.added ∧ ¬ (get? l0.added k = get? r0.added k) ∧
        truthy (get? l0.added k) = true
    · rw [if_pos hc, if_pos (show hasKey r0.added k = true ∧
        ¬ (get? l0.added k = get? r0.added k) ∧ truthy (get? l0.added k) = true from
        ⟨(hasKey_iff_mem_keys _ _).mpr hc.1, hc.2⟩)]
    · rw [if_neg hc, if_neg (show ¬ (hasKey r0.added k = true ∧
        ¬ (get? l0.added k = get? r0.added k) ∧ truthy (get? l0.added k) = true) from
        fun hh => hc ⟨(hasKey_iff_mem_keys _ _).mp hh.1, hh.2⟩)]
  have hK3 : (keys s2.2.except).Nodup := by
    rw [hs2]
    apply step2_foldl_nodup_except2
    rw [hs1]
    exact step1_foldl_nodup_except2 _ _ hle
  rcases step3_foldl_get (keys s2.2.except) s2 k hK3 with ⟨t1, t2⟩
  rw [t1, t2]
  have hmemiff : (k ∈ keys s2.2.except) ↔ (cfteE2l r0 l0 k).isSome = true := by
    rw [← hasKey_iff_mem_keys, hasKey_eq_isSome_get?, hE2l]
  constructor
  · by_cases hc : k ∈ keys s2.2.except ∧ get? s2.2.except k = get? s2.1.except k
    · rw [if_pos hc, if_pos (show (cfteE2l r0 l0 k).isSome = true ∧
        cfteE2l r0 l0 k = cfteE2r r0 l0 k from
        ⟨hmemiff.mp hc.1, by rw [← hE2l, ← hE2r]; exact hc.2⟩)]
    · rw [if_neg hc, if_neg (show ¬ ((cfteE2l r0 l0 k).isSome = true ∧
        cfteE2l r0 l0 k = cfteE2r r0 l0 k) from
        fun hh => hc ⟨hmemiff.mpr hh.1, by rw [hE2l, hE2r]; exact hh.2⟩), hE2r]
  · by_cases hc : k ∈ keys s2.2.except ∧ get? s2.2.except k = get? s2.1.except k
    · rw [if_pos hc, if_pos (show (cfteE2l r0 l0 k).isSome = true ∧
        cfteE2l r0 l0 k = cfteE2r r0 l0 k from
        ⟨hmemiff.mp hc.1, by rw [← hE2l, ← hE2r]; exact hc.2⟩)]
    · rw [if_neg hc, if_neg (show ¬ ((cfteE2l r0 l0 k).isSome = true ∧
        cfteE2l r0 l0 k = cfteE2r r0 l0 k) from
        fun hh => hc ⟨hmemiff.mpr hh.1, by rw [hE2l, hE2r]; exact hh.2⟩), hE2l]

/-! ### Case equations for compareFileTrees -/

theorem compareFileTrees_remoteEmpty (ig : String → Bool) (prevF prevE L : FileList) :
    compareFileTrees ig prevF prevE [] L =
      { remoteFiles := emptyFileTree, localFiles := { emptyFileTree with added := L } } := by
  unfold compareFileTrees
  have hcond : (prevF.isEmpty || ([] : FileList).isEmpty) = true := by simp
  rw [if_pos hcond]
  rfl

theorem compareFileTrees_noPrev (ig : String → Bool) (prevF prevE R L : FileList)
    (hp : prevF.isEmpty = true) (hr : R.isEmpty = false) :
    compareFileTrees ig prevF prevE R L =
      { remoteFiles := (compareFileTreesExcept
          { added := R, deleted := [], modified := [], except := [] }
          { added := L, deleted := [], modified := [], except := [] }).1,
        localFiles := (compareFileTreesExcept
          { added := R, deleted := [], modified := [], except := [] }
          { added := L, deleted := [], modified := [], except := [] }).2 } := by
  unfold compareFileTrees
  rw [hp, hr]
  rfl

theorem compareFileTrees_case2 (ig : String → Bool) (prevF prevE R L : FileList)
    (hp : prevF.isEmpty = false) (hr : R.isEmpty = false) :
    compareFileTrees ig prevF prevE R L =
      { remoteFiles := { (compareFileTreesExcept
          { comparePreviousFileTree (filterExclusions ig prevF) (filterExclusions ig prevE) R with
            except := spread prevE (comparePreviousFileTree (filterExclusions ig prevF)
              (filterExclusions ig prevE) R).except }
          { comparePreviousFileTree (filterExclusions ig prevF) (filterExclusions ig prevE) L with
            except := spread prevE (comparePreviousFileTree (filterExclusions ig prevF)
              (filterExclusions ig prevE) L).except }).1 with
          deleted := checkExistKey (compareFileTreesExcept
            { comparePreviousFileTree (filterExclusions ig prevF) (filterExclusions ig prevE) R with
              except := spread prevE (comparePreviousFileTree (filterExclusions ig prevF)
                (filterExclusions ig prevE) R).except }
            { comparePreviousFileTree (filterExclusions ig prevF) (filterExclusions ig prevE) L with
              except := spread prevE (comparePreviousFileTree (filterExclusions ig prevF)
                (filterExclusions ig prevE) L).except }).1.deleted L },
        localFiles := { (compareFileTreesExcept
          { comparePreviousFileTree (filterExclusions ig prevF) (filterExclusions ig prevE) R with
            except := spread prevE (comparePreviousFileTree (filterExclusions ig prevF)
              (filterExclusions ig prevE) R).except }
          { comparePreviousFileTree (filterExclusions ig prevF) (filterExclusions ig prevE) L with
            except := spread prevE (comparePreviousFileTree (filterExclusions ig prevF)
              (filterExclusions ig prevE) L).except }).2 with
          deleted := checkExistKey (compareFileTreesExcept
            { comparePreviousFileTree (filterExclusions ig prevF) (filterExclusions ig prevE) R with
              except := spread prevE (comparePreviousFileTree (filterExclusions ig prevF)
                (filterExclusions ig prevE) R).except }
            { comparePreviousFileTree (filterExclusions ig prevF) (filterExclusions ig prevE) L with
              except := spread prevE (comparePreviousFileTree (filterExclusions ig prevF)
                (filterExclusions ig prevE) L).except }).2.deleted R } } := by
  unfold compareFileTrees
  rw [hp, hr]
  rfl

/-! Small bridging helpers. -/

theorem match_or_self (o : Option String) :
    (match o with | some w => some w | none => o) = o := by
  cases o <;> rfl

theorem hasKey_of_hasKey_filter (q : String × String → Bool) (l : FileList) (k : String)
    (h : hasKey (l.filter q) k = true) : hasKey l k = true := by
  rw [hasKey_iff_mem_keys] at h ⊢
  unfold keys at h ⊢
  rcases List.mem_map.mp h with ⟨p, hp, hpk⟩
  exact List.mem_map.mpr ⟨p, (List.mem_filter.mp hp).1, hpk⟩

theorem isSome_get?_filterExclusions (ig : String → Bool) (l : FileList) (k : String) :
    (get? (filterExclusions ig l) k).isSome = true → (get? l k).isSome = true := by
  rw [get?_filterExclusions]
  by_cases hig : ig k = true
  · rw [if_pos hig]
    intro h
    simp at h
  · rw [if_neg hig]
    exact id

theorem isSome_match_or (o q : Option String) :
    (match o with | some w => some w | none => q).isSome = (o.isSome || q.isSome) := by
  cases o <;> simp

/-- An except entry of a comparePreviousFileTree branch can only exist at
a key that the raw carried-conflict list also has (after unfiltering). -/
theorem cpf_except_isSome_prevE (ig : String → Bool) (prevE X : FileList) (k : String)
    (hX : (keys X).Nodup) (hE : (keys (filterExclusions ig prevE)).Nodup)
    (P : FileList)
    (hs : (get? (comparePreviousFileTree P (filterExclusions ig prevE) X).except k).isSome = true) :
    (get? prevE k).isSome = true := by
  rw [cpf_except_get P (filterExclusions ig prevE) X k hX hE] at hs
  split_ifs at hs with hc1 hc2
  · apply isSome_get?_filterExclusions ig prevE k
    rw [← hasKey_eq_isSome_get?]
    exact hc1.2.2.2
  · exact isSome_get?_filterExclusions ig prevE k hs
  · simp at hs

/-- C7: the two merged except lists agree on key presence with the raw
carried-conflict list, hence with each other, and are resolved by the
third loop only in lockstep. -/
theorem c7_conflict_symmetry (ig : String → Bool)
    (prevFiles prevExcept remoteFiles localFiles : FileList)
    (hR : (keys remoteFiles).Nodup) (hL : (keys localFiles).Nodup)
    (hE : (keys prevExcept).Nodup) (k : String) :
    (hasKey (compareFileTrees ig prevFiles prevExcept remoteFiles localFiles).remoteFiles.except k = true ↔
     hasKey (compareFileTrees ig prevFiles prevExcept remoteFiles localFiles).localFiles.except k = true) := by
  by_cases hre : remoteFiles.isEmpty = true
  · have hR0 : remoteFiles = [] := by
      cases remoteFiles with
      | nil => rfl
      | cons a l => simp [List.isEmpty] at hre
    subst hR0
    rw [compareFileTrees_remoteEmpty]
  · have hre' : remoteFiles.isEmpty = false := by simpa using hre
    by_cases hpe : prevFiles.isEmpty = true
    · rw [compareFileTrees_noPrev ig prevFiles prevExcept remoteFiles localFiles hpe hre']
      rcases cfte_except_get
        { added := remoteFiles, deleted := [], modified := [], except := [] }
        { added := localFiles, deleted := [], modified := [], except := [] } k
        List.nodup_nil hR List.nodup_nil with ⟨h1, h2⟩
      show hasKey (compareFileTreesExcept
          { added := remoteFiles, deleted := [], modified := [], except := [] }
          { added := localFiles, deleted := [], modified := [], except := [] }).1.except k = true ↔
        hasKey (compareFileTreesExcept
          { added := remoteFiles, deleted := [], modified := [], except := [] }
          { added := localFiles, deleted := [], modified := [], except := [] }).2.except k = true
      rw [hasKey_eq_isSome_get?, hasKey_eq_isSome_get?, h1, h2]
      have he12 : (cfteE2r
          { added := remoteFiles, deleted := [], modified := [], except := [] }
          { added := localFiles, deleted := [], modified := [], except := [] } k).isSome =
        (cfteE2l
          { added := remoteFiles, deleted := [], modified := [], except := [] }
          { added := localFiles, deleted := [], modified := [], except := [] } k).isSome := by
        unfold cfteE2r cfteE2l cfteE1r cfteE1l
        split_ifs <;> simp_all [hasKey_nil, get?_nil]
      split_ifs with hc
      · simp
      · rw [he12]
    · have hpe' : prevFiles.isEmpty = false := by simpa using hpe
      rw [compareFileTrees_case2 ig prevFiles prevExcept remoteFiles localFiles hpe' hre']
      set P := filterExclusions ig prevFiles with hPdef
      set E := filterExclusions ig prevExcept with hEdef
      set bR := comparePreviousFileTree P E remoteFiles with hbR
      set bL := comparePreviousFileTree P E localFiles with hbL
      set mR : FileTree := { bR with except := spread prevExcept bR.except } with hmR
      set mL : FileTree := { bL with except := spread prevExcept bL.except } with hmL
      have hEn : (keys E).Nodup := nodupKeys_filterExclusions ig prevExcept hE
      have hnm : (keys mR.modified).Nodup := by
        rw [hmR]
        exact cpf_nodup_modified P E remoteFiles
      have hna : (keys mR.added).Nodup := by
        rw [hmR]
        exact cpf_nodup_added P E remoteFiles
      have hnle : (keys mL.except).Nodup := by
        rw [hmL]
        exact nodupKeys_spread prevExcept bL.except hE (cpf_nodup_except P E localFiles hEn)
      rcases cfte_except_get mR mL k hnm hna hnle with ⟨h1, h2⟩
      show hasKey (compareFileTreesExcept mR mL).1.except k = true ↔
        hasKey (compareFileTreesExcept mR mL).2.except k = true
      rw [hasKey_eq_isSome_get?, hasKey_eq_isSome_get?, h1, h2]
      have hmRe : (get? mR.except k).isSome = (get? prevExcept k).isSome := by
        rw [hmR]
        show (get? (spread prevExcept bR.except) k).isSome = _
        rw [get?_spread, isSome_match_or]
        by_cases hb : (get? bR.except k).isSome = true
        · have := cpf_except_isSome_prevE ig prevExcept remoteFiles k hR hEn P (by rw [← hbR]; exact hb)
          rw [hb, this]
          rfl
        · have hb' : (get? bR.except k).isSome = false := by simpa using hb
          rw [hb']
          simp
      have hmLe : (get? mL.except k).isSome = (get? prevExcept k).isSome := by
        rw [hmL]
        show (get? (spread prevExcept bL.except) k).isSome = _
        rw [get?_spread, isSome_match_or]
        by_cases hb : (get? bL.except k).isSome = true
        · have := cpf_except_isSome_prevE ig prevExcept localFiles k hL hEn P (by rw [← hbL]; exact hb)
          rw [hb, this]
          rfl
        · have hb' : (get? bL.except k).isSome = false := by simpa using hb
          rw [hb']
          simp
      have he12 : (cfteE2r mR mL k).isSome = (cfteE2l mR mL k).isSome := by
        unfold cfteE2r cfteE2l cfteE1r cfteE1l
        split_ifs <;> simp [hmRe, hmLe]
      split_ifs with hc
      · simp
      · rw [he12]

/-- Closed witness for the conflict-symmetry theorem at a concrete input. -/
theorem c7_conflict_symmetry_witness :
    ([("a", "H1")] : FileList) = [("a", "H1")] ∧
    (hasKey (compareFileTrees (fun _ => false) [("a", "H1")] [("a", "X")]
      [("a", "H2")] []).remoteFiles.except "a" = true ↔
     hasKey (compareFileTrees (fun _ => false) [("a", "H1")] [("a", "X")]
      [("a", "H2")] []).localFiles.except "a" = true) :=
  ⟨rfl, c7_conflict_symmetry (fun _ => false) [("a", "H1")] [("a", "X")] [("a", "H2")] []
    (by decide) (by decide) (by decide) "a"⟩

/-- When the first branch of the except characterization does not fire,
the merged except entry is exactly the raw carried-conflict entry. -/
theorem spread_cpf_except_eq_prevE (ig : String → Bool) (prevE P X : FileList) (k : String)
    (hX : (keys X).Nodup) (hEn : (keys (filterExclusions ig prevE)).Nodup)
    (hnb : ¬ (hasKey X k = true ∧ get? P k ≠ get? X k ∧ truthy (get? P k) = true ∧
        hasKey (filterExclusions ig prevE) k = true)) :
    get? (spread prevE (comparePreviousFileTree P (filterExclusions ig prevE) X).except) k
      = get? prevE k := by
  rw [get?_spread, cpf_except_get P _ X k hX hEn, if_neg hnb]
  by_cases hxk : hasKey X k = true
  · rw [if_pos hxk, get?_filterExclusions]
    by_cases hig : ig k = true
    · rw [if_pos hig]
    · rw [if_neg hig]
      exact match_or_self _
  · rw [if_neg hxk]

theorem isSome_ite_none (c : Prop) [Decidable c] (o : Option String)
    (h : (if c then none else o).isSome = true) : ¬ c ∧ o.isSome = true := by
  by_cases hc : c
  · rw [if_pos hc] at h
    simp at h
  · rw [if_neg hc] at h
    exact ⟨hc, h⟩

theorem isSome_ite_none_else (c : Prop) [Decidable c] (o : Option String)
    (h : (if c then o else none).isSome = true) : c ∧ o.isSome = true := by
  by_cases hc : c
  · rw [if_pos hc] at h
    exact ⟨hc, h⟩
  · rw [if_neg hc] at h
    simp at h

/-- Pairwise disjointness of the ChangeSet categories in the regular
(snapshot-present) workflow, except for the deleted/except pair, which
can genuinely overlap. -/
theorem disjoint_case2 (ig : String → Bool) (prevF prevE R L : FileList)
    (hp : prevF.isEmpty = false) (hr : R.isEmpty = false)
    (hP : (keys prevF).Nodup) (hE : (keys prevE).Nodup)
    (hR : (keys R).Nodup) (hL : (keys L).Nodup) (k : String) :
    (¬ (hasKey (compareFileTrees ig prevF prevE R L).remoteFiles.added k = true ∧
        hasKey (compareFileTrees ig prevF prevE R L).remoteFiles.deleted k = true)) ∧
    (¬ (hasKey (compareFileTrees ig prevF prevE R L).remoteFiles.added k = true ∧
        hasKey (compareFileTrees ig prevF prevE R L).remoteFiles.modified k = true)) ∧
    (¬ (hasKey (compareFileTrees ig prevF prevE R L).remoteFiles.added k = true ∧
        hasKey (compareFileTrees ig prevF prevE R L).remoteFiles.except k = true)) ∧
    (¬ (hasKey (compareFileTrees ig prevF prevE R L).remoteFiles.deleted k = true ∧
        hasKey (compareFileTrees ig prevF prevE R L).remoteFiles.modified k = true)) ∧
    (¬ (hasKey (compareFileTrees ig prevF prevE R L).remoteFiles.modified k = true ∧
        hasKey (compareFileTrees ig prevF prevE R L).remoteFiles.except k = true)) ∧
    (¬ (hasKey (compareFileTrees ig prevF prevE R L).localFiles.added k = true ∧
        hasKey (compareFileTrees ig prevF prevE R L).localFiles.deleted k = true)) ∧
    (¬ (hasKey (compareFileTrees ig prevF prevE R L).localFiles.added k = true ∧
        hasKey (compareFileTrees ig prevF prevE R L).localFiles.modified k = true)) ∧
    (¬ (hasKey (compareFileTrees ig prevF prevE R L).localFiles.added k = true ∧
        hasKey (compareFileTrees ig prevF prevE R L).localFiles.except k = true)) ∧
    (¬ (hasKey (compareFileTrees ig prevF prevE R L).localFiles.deleted k = true ∧
        hasKey (compareFileTrees ig prevF prevE R L).localFiles.modified k = true)) ∧
    (¬ (hasKey (compareFileTrees ig prevF prevE R L).localFiles.modified k = true ∧
        hasKey (compareFileTrees ig prevF prevE R L).localFiles.except k = true)) := by
  rw [compareFileTrees_case2 ig prevF prevE R L hp hr]
  set P := filterExclusions ig prevF with hPdef
  set E := filterExclusions ig prevE with hEdef
  set bR := comparePreviousFileTree P E R with hbR
  set bL := comparePreviousFileTree P E L with hbL
  set mR : FileTree := { bR with except := spread prevE bR.except } with hmR
  set mL : FileTree := { bL with except := spread prevE bL.except } with hmL
  have hPn : (keys P).Nodup := nodupKeys_filterExclusions ig prevF hP
  have hEn : (keys E).Nodup := nodupKeys_filterExclusions ig prevE hE
  have hEn' : (keys (filterExclusions ig prevE)).Nodup := by rw [← hEdef]; exact hEn
  have hnm : (keys mR.modified).Nodup := by
    rw [hmR]
    exact cpf_nodup_modified P E R
  have hna : (keys mR.added).Nodup := by
    rw [hmR]
    exact cpf_nodup_added P E R
  have hnle : (keys mL.except).Nodup := by
    rw [hmL]
    exact nodupKeys_spread prevE bL.except hE (cpf_nodup_except P E L hEn)
  rcases cfte_added_get mR mL k hna with ⟨hAr, hAl⟩
  rcases cfte_modified_get mR mL k hnm with ⟨hMr, hMl⟩
  rcases cfte_except_get mR mL k hnm hna hnle with ⟨hXr, hXl⟩
  rcases cfte_deleted_lists mR mL with ⟨hDr, hDl⟩
  have haR : get? mR.added k =
      (if hasKey R k = true ∧ get? P k ≠ get? R k ∧ truthy (get? P k) = false
       then get? R k else none) := by
    rw [hmR]
    show get? bR.added k = _
    rw [hbR]
    exact cpf_added_get P E R k hR
  have haL : get? mL.added k =
      (if hasKey L k = true ∧ get? P k ≠ get? L k ∧ truthy (get? P k) = false
       then get? L k else none) := by
    rw [hmL]
    show get? bL.added k = _
    rw [hbL]
    exact cpf_added_get P E L k hL
  have hmRv : get? mR.modified k =
      (if hasKey R k = true ∧ get? P k ≠ get? R k ∧ truthy (get? P k) = true ∧
          hasKey E k = false
       then get? R k else none) := by
    rw [hmR]
    show get? bR.modified k = _
    rw [hbR]
    exact cpf_modified_get P E R k hR hEn
  have hmLv : get? mL.modified k =
      (if hasKey L k = true ∧ get? P k ≠ get? L k ∧ truthy (get? P k) = true ∧
          hasKey E k = false
       then get? L k else none) := by
    rw [hmL]
    show get? bL.modified k = _
    rw [hbL]
    exact cpf_modified_get P E L k hL hEn
  have hdR : get? mR.deleted k =
      (if hasKey P k = true ∧ hasKey R k = false then get? P k else none) := by
    rw [hmR]
    show get? bR.deleted k = _
    rw [hbR]
    exact cpf_deleted_get P E R k hPn
  have hdL : get? mL.deleted k =
      (if hasKey P k = true ∧ hasKey L k = false then get? P k else none) := by
    rw [hmL]
    show get? bL.deleted k = _
    rw [hbL]
    exact cpf_deleted_get P E L k hPn
  -- conversions of the final categories into facts at key k
  have addR : ∀ (h : hasKey (compareFileTreesExcept mR mL).1.added k = true),
      ¬ (hasKey mR.added k = true ∧ (get? mL.added k = get? mR.added k ∨
          truthy (get? mL.added k) = true)) ∧
      (hasKey R k = true ∧ get? P k ≠ get? R k ∧ truthy (get? P k) = false) := by
    intro h
    rw [hasKey_eq_isSome_get?, hAr] at h
    rcases isSome_ite_none _ _ h with ⟨hnc, hsome⟩
    rw [haR] at hsome
    exact ⟨hnc, (isSome_ite_none_else _ _ hsome).1⟩
  have addL : ∀ (h : hasKey (compareFileTreesExcept mR mL).2.added k = true),
      ¬ (hasKey mR.added k = true ∧ (get? mL.added k = get? mR.added k ∨
          truthy (get? mL.added k) = true)) ∧
      (hasKey L k = true ∧ get? P k ≠ get? L k ∧ truthy (get? P k) = false) := by
    intro h
    rw [hasKey_eq_isSome_get?, hAl] at h
    rcases isSome_ite_none _ _ h with ⟨hnc, hsome⟩
    rw [haL] at hsome
    exact ⟨hnc, (isSome_ite_none_else _ _ hsome).1⟩
  have modR : ∀ (h : hasKey (compareFileTreesExcept mR mL).1.modified k = true),
      ¬ (hasKey mR.modified k = true ∧ truthy (get? mL.modified k) = true) ∧
      (hasKey R k = true ∧ get? P k ≠ get? R k ∧ truthy (get? P k) = true ∧
        hasKey E k = false) := by
    intro h
    rw [hasKey_eq_isSome_get?, hMr] at h
    rcases isSome_ite_none _ _ h with ⟨hnc, hsome⟩
    rw [hmRv] at hsome
    exact ⟨hnc, (isSome_ite_none_else _ _ hsome).1⟩
  have modL : ∀ (h : hasKey (compareFileTreesExcept mR mL).2.modified k = true),
      ¬ (hasKey mR.modified k = true ∧ truthy (get? mL.modified k) = true) ∧
      (hasKey L k = true ∧ get? P k ≠ get? L k ∧ truthy (get? P k) = true ∧
        hasKey E k = false) := by
    intro h
    rw [hasKey_eq_isSome_get?, hMl] at h
    rcases isSome_ite_none _ _ h with ⟨hnc, hsome⟩
    rw [hmLv] at hsome
    exact ⟨hnc, (isSome_ite_none_else _ _ hsome).1⟩
  have delR : ∀ (h : hasKey (checkExistKey (compareFileTreesExcept mR mL).1.deleted L) k = true),
      hasKey P k = true ∧ hasKey R k = false := by
    intro h
    rw [hasKey_eq_isSome_get?, get?_checkExistKey] at h
    rcases isSome_ite_none_else _ _ h with ⟨_, hsome⟩
    rw [hDr, hdR] at hsome
    exact (isSome_ite_none_else _ _ hsome).1
  have delL : ∀ (h : hasKey (checkExistKey (compareFileTreesExcept mR mL).2.deleted R) k = true),
      hasKey P k = true ∧ hasKey L k = false := by
    intro h
    rw [hasKey_eq_isSome_get?, get?_checkExistKey] at h
    rcases isSome_ite_none_else _ _ h with ⟨_, hsome⟩
    rw [hDl, hdL] at hsome
    exact (isSome_ite_none_else _ _ hsome).1
  have excR : ∀ (h : hasKey (compareFileTreesExcept mR mL).1.except k = true),
      ¬ ((cfteE2l mR mL k).isSome = true ∧ cfteE2l mR mL k = cfteE2r mR mL k) ∧
      (cfteE2r mR mL k).isSome = true := by
    intro h
    rw [hasKey_eq_isSome_get?, hXr] at h
    exact isSome_ite_none _ _ h
  have excL : ∀ (h : hasKey (compareFileTreesExcept mR mL).2.except k = true),
      ¬ ((cfteE2l mR mL k).isSome = true ∧ cfteE2l mR mL k = cfteE2r mR mL k) ∧
      (cfteE2l mR mL k).isSome = true := by
    intro h
    rw [hasKey_eq_isSome_get?, hXl] at h
    exact isSome_ite_none _ _ h
  -- the merged except entries both reduce to the raw carried entry when
  -- neither side classified the key as a truthy-previous change
  have he2r_prevE : ∀ (hc2 : ¬ (hasKey mR.added k = true ∧
        ¬ (get? mL.added k = get? mR.added k) ∧ truthy (get? mL.added k) = true))
      (hc1 : ¬ (hasKey mR.modified k = true ∧ truthy (get? mL.modified k) = true))
      (hnb : ¬ (hasKey R k = true ∧ get? P k ≠ get? R k ∧ truthy (get? P k) = true ∧
        hasKey (filterExclusions ig prevE) k = true)),
      cfteE2r mR mL k = get? prevE k := by
    intro hc2 hc1 hnb
    unfold cfteE2r cfteE1r
    rw [if_neg hc2, if_neg hc1]
    show get? (spread prevE bR.except) k = _
    rw [hbR, hEdef]
    exact spread_cpf_except_eq_prevE ig prevE P R k hR hEn' hnb
  have he2l_prevE : ∀ (hc2 : ¬ (hasKey mR.added k = true ∧
        ¬ (get? mL.added k = get? mR.added k) ∧ truthy (get? mL.added k) = true))
      (hc1 : ¬ (hasKey mR.modified k = true ∧ truthy (get? mL.modified k) = true))
      (hnb : ¬ (hasKey L k = true ∧ get? P k ≠ get? L k ∧ truthy (get? P k) = true ∧
        hasKey (filterExclusions ig prevE) k = true)),
      cfteE2l mR mL k = get? prevE k := by
    intro hc2 hc1 hnb
    unfold cfteE2l cfteE1l
    rw [if_neg hc2, if_neg hc1]
    show get? (spread prevE bL.except) k = _
    rw [hbL, hEdef]
    exact spread_cpf_except_eq_prevE ig prevE P L k hL hEn' hnb
  refine ⟨?_, ?_, ?_, ?_, ?_, ?_, ?_, ?_, ?_, ?_⟩
  · rintro ⟨h1, h2⟩
    have hc1 := (addR h1).2.1
    have hc2 := (delR h2).2
    rw [hc1] at hc2
    exact absurd hc2 (by simp)
  · rintro ⟨h1, h2⟩
    have hc1 := (addR h1).2.2.2
    have hc2 := (modR h2).2.2.2.1
    rw [hc1] at hc2
    exact absurd hc2 (by simp)
  · rintro ⟨h1, h2⟩
    rcases addR h1 with ⟨hncA, hcR⟩
    rcases excR h2 with ⟨hnc3, hsomeE2r⟩
    have hmLmod : get? mL.modified k = none := by
      rw [hmLv]
      apply if_neg
      intro hh
      have := hh.2.2.1
      rw [hcR.2.2] at this
      simp at this
    have hc1 : ¬ (hasKey mR.modified k = true ∧ truthy (get? mL.modified k) = true) := by
      intro hh
      rw [hmLmod] at hh
      exact absurd hh.2 (by simp [truthy])
    have hc2 : ¬ (hasKey mR.added k = true ∧
        ¬ (get? mL.added k = get? mR.added k) ∧ truthy (get? mL.added k) = true) :=
      fun hh => hncA ⟨hh.1, Or.inr hh.2.2⟩
    have hnbR : ¬ (hasKey R k = true ∧ get? P k ≠ get? R k ∧ truthy (get? P k) = true ∧
        hasKey (filterExclusions ig prevE) k = true) := by
      intro hh
      have := hh.2.2.1
      rw [hcR.2.2] at this
      simp at this
    have hnbL : ¬ (hasKey L k = true ∧ get? P k ≠ get? L k ∧ truthy (get? P k) = true ∧
        hasKey (filterExclusions ig prevE) k = true) := by
      intro hh
      have := hh.2.2.1
      rw [hcR.2.2] at this
      simp at this
    have he2r := he2r_prevE hc2 hc1 hnbR
    have he2l := he2l_prevE hc2 hc1 hnbL
    exact hnc3 ⟨by rw [he2l, ← he2r]; exact hsomeE2r, by rw [he2l, he2r]⟩
  · rintro ⟨h1, h2⟩
    have hc1 := (delR h1).2
    have hc2 := (modR h2).2.1
    rw [hc1] at hc2
    exact absurd hc2 (by simp)
  · rintro ⟨h1, h2⟩
    rcases modR h1 with ⟨hnc1, hcM⟩
    rcases excR h2 with ⟨hnc3, hsomeE2r⟩
    have hmRadd : get? mR.added k = none := by
      rw [haR]
      apply if_neg
      intro hh
      have := hh.2.2
      rw [hcM.2.2.1] at this
      simp at this
    have hKA : hasKey mR.added k = false := by
      rw [hasKey_eq_isSome_get?, hmRadd]
      rfl
    have hc2 : ¬ (hasKey mR.added k = true ∧
        ¬ (get? mL.added k = get? mR.added k) ∧ truthy (get? mL.added k) = true) := by
      intro hh
      rw [hKA] at hh
      exact absurd hh.1 (by simp)
    have hEfalse : hasKey (filterExclusions ig prevE) k = false := by
      rw [← hEdef]
      exact hcM.2.2.2
    have hnbR : ¬ (hasKey R k = true ∧ get? P k ≠ get? R k ∧ truthy (get? P k) = true ∧
        hasKey (filterExclusions ig prevE) k = true) := by
      intro hh
      rw [hEfalse] at hh
      exact absurd hh.2.2.2 (by simp)
    have hnbL : ¬ (hasKey L k = true ∧ get? P k ≠ get? L k ∧ truthy (get? P k) = true ∧
        hasKey (filterExclusions ig prevE) k = true) := by
      intro hh
      rw [hEfalse] at hh
      exact absurd hh.2.2.2 (by simp)
    have he2r := he2r_prevE hc2 hnc1 hnbR
    have he2l := he2l_prevE hc2 hnc1 hnbL
    exact hnc3 ⟨by rw [he2l, ← he2r]; exact hsomeE2r, by rw [he2l, he2r]⟩
  · rintro ⟨h1, h2⟩
    have hc1 := (addL h1).2.1
    have hc2 := (delL h2).2
    rw [hc1] at hc2
    exact absurd hc2 (by simp)
  · rintro ⟨h1, h2⟩
    have hc1 := (addL h1).2.2.2
    have hc2 := (modL h2).2.2.2.1
    rw [hc1] at hc2
    exact absurd hc2 (by simp)
  · rintro ⟨h1, h2⟩
    rcases addL h1 with ⟨hncA, hcL⟩
    rcases excL h2 with ⟨hnc3, hsomeE2l⟩
    have hmLmod : get? mL.modified k = none := by
      rw [hmLv]
      apply if_neg
      intro hh
      have := hh.2.2.1
      rw [hcL.2.2] at this
      simp at this
    have hc1 : ¬ (hasKey mR.modified k = true ∧ truthy (get? mL.modified k) = true) := by
      intro hh
      rw [hmLmod] at hh
      exact absurd hh.2 (by simp [truthy])
    have hc2 : ¬ (hasKey mR.added k = true ∧
        ¬ (get? mL.added k = get? mR.added k) ∧ truthy (get? mL.added k) = true) :=
      fun hh => hncA ⟨hh.1, Or.inr hh.2.2⟩
    have hnbR : ¬ (hasKey R k = true ∧ get? P k ≠ get? R k ∧ truthy (get? P k) = true ∧
        hasKey (filterExclusions ig prevE) k = true) := by
      intro hh
      have := hh.2.2.1
      rw [hcL.2.2] at this
      simp at this
    have hnbL : ¬ (hasKey L k = true ∧ get? P k ≠ get? L k ∧ truthy (get? P k) = true ∧
        hasKey (filterExclusions ig prevE) k = true) := by
      intro hh
      have := hh.2.2.1
      rw [hcL.2.2] at this
      simp at this
    have he2r := he2r_prevE hc2 hc1 hnbR
    have he2l := he2l_prevE hc2 hc1 hnbL
    exact hnc3 ⟨hsomeE2l, by rw [he2l, he2r]⟩
  · rintro ⟨h1, h2⟩
    have hc1 := (delL h1).2
    have hc2 := (modL h2).2.1
    rw [hc1] at hc2
    exact absurd hc2 (by simp)
  · rintro ⟨h1, h2⟩
    rcases modL h1 with ⟨hnc1, hcM⟩
    rcases excL h2 with ⟨hnc3, hsomeE2l⟩
    have hmLadd : get? mL.added k = none := by
      rw [haL]
      apply if_neg
      intro hh
      have := hh.2.2
      rw [hcM.2.2.1] at this
      simp at this
    have hc2 : ¬ (hasKey mR.added k = true ∧
        ¬ (get? mL.added k = get? mR.added k) ∧ truthy (get? mL.added k) = true) := by
      intro hh
      have := hh.2.2
      rw [hmLadd] at this
      simp [truthy] at this
    have hEfalse : hasKey (filterExclusions ig prevE) k = false := by
      rw [← hEdef]
      exact hcM.2.2.2
    have hnbR : ¬ (hasKey R k = true ∧ get? P k ≠ get? R k ∧ truthy (get? P k) = true ∧
        hasKey (filterExclusions ig prevE) k = true) := by
      intro hh
      rw [hEfalse] at hh
      exact absurd hh.2.2.2 (by simp)
    have hnbL : ¬ (hasKey L k = true ∧ get? P k ≠ get? L k ∧ truthy (get? P k) = true ∧
        hasKey (filterExclusions ig prevE) k = true) := by
      intro hh
      rw [hEfalse] at hh
      exact absurd hh.2.2.2 (by simp)
    have he2r := he2r_prevE hc2 hnc1 hnbR
    have he2l := he2l_prevE hc2 hnc1 hnbL
    exact hnc3 ⟨hsomeE2l, by rw [he2l, he2r]⟩

/-- Pairwise disjointness (same pairs) in the no-snapshot direct peer
comparison. -/
theorem disjoint_noPrev (ig : String → Bool) (prevF prevE R L : FileList)
    (hp : prevF.isEmpty = true) (hr : R.isEmpty = false)
    (hR : (keys R).Nodup) (_hL : (keys L).Nodup) (k : String) :
    (¬ (hasKey (compareFileTrees ig prevF prevE R L).remoteFiles.added k = true ∧
        hasKey (compareFileTrees ig prevF prevE R L).remoteFiles.deleted k = true)) ∧
    (¬ (hasKey (compareFileTrees ig prevF prevE R L).remoteFiles.added k = true ∧
        hasKey (compareFileTrees ig prevF prevE R L).remoteFiles.modified k = true)) ∧
    (¬ (hasKey (compareFileTrees ig prevF prevE R L).remoteFiles.added k = true ∧
        hasKey (compareFileTrees ig prevF prevE R L).remoteFiles.except k = true)) ∧
    (¬ (hasKey (compareFileTrees ig prevF prevE R L).remoteFiles.deleted k = true ∧
        hasKey (compareFileTrees ig prevF prevE R L).remoteFiles.modified k = true)) ∧
    (¬ (hasKey (compareFileTrees ig prevF prevE R L).remoteFiles.modified k = true ∧
        hasKey (compareFileTrees ig prevF prevE R L).remoteFiles.except k = true)) ∧
    (¬ (hasKey (compareFileTrees ig prevF prevE R L).localFiles.added k = true ∧
        hasKey (compareFileTrees ig prevF prevE R L).localFiles.deleted k = true)) ∧
    (¬ (hasKey (compareFileTrees ig prevF prevE R L).localFiles.added k = true ∧
        hasKey (compareFileTrees ig prevF prevE R L).localFiles.modified k = true)) ∧
    (¬ (hasKey (compareFileTrees ig prevF prevE R L).localFiles.added k = true ∧
        hasKey (compareFileTrees ig prevF prevE R L).localFiles.except k = true)) ∧
    (¬ (hasKey (compareFileTrees ig prevF prevE R L).localFiles.deleted k = true ∧
        hasKey (compareFileTrees ig prevF prevE R L).localFiles.modified k = true)) ∧
    (¬ (hasKey (compareFileTrees ig prevF prevE R L).localFiles.modified k = true ∧
        hasKey (compareFileTrees ig prevF prevE R L).localFiles.except k = true)) := by
  rw [compareFileTrees_noPrev ig prevF prevE R L hp hr]
  set r0 : FileTree := { added := R, deleted := [], modified := [], except := [] } with hr0
  set l0 : FileTree := { added := L, deleted := [], modified := [], except := [] } with hl0
  have hnm : (keys r0.modified).Nodup := by rw [hr0]; exact List.nodup_nil
  have hna : (keys r0.added).Nodup := by rw [hr0]; exact hR
  have hnle : (keys l0.except).Nodup := by rw [hl0]; exact List.nodup_nil
  rcases cfte_added_get r0 l0 k hna with ⟨hAr, hAl⟩
  rcases cfte_modified_get r0 l0 k hnm with ⟨hMr, hMl⟩
  rcases cfte_except_get r0 l0 k hnm hna hnle with ⟨hXr, hXl⟩
  rcases cfte_deleted_lists r0 l0 with ⟨hDr, hDl⟩
  have hmod0 : hasKey r0.modified k = false := by rw [hr0]; rfl
  have hmodR : hasKey (compareFileTreesExcept r0 l0).1.modified k = false := by
    rw [hasKey_eq_isSome_get?, hMr,
      if_neg (fun hh => by rw [hmod0] at hh; exact absurd hh.1 (by simp))]
    rw [hr0]
    rfl
  have hmodL : hasKey (compareFileTreesExcept r0 l0).2.modified k = false := by
    rw [hasKey_eq_isSome_get?, hMl,
      if_neg (fun hh => by rw [hmod0] at hh; exact absurd hh.1 (by simp))]
    rw [hl0]
    rfl
  have hdelR : hasKey (compareFileTreesExcept r0 l0).1.deleted k = false := by
    rw [hasKey_eq_isSome_get?, hDr, hr0]
    rfl
  have hdelL : hasKey (compareFileTreesExcept r0 l0).2.deleted k = false := by
    rw [hasKey_eq_isSome_get?, hDl, hl0]
    rfl
  have he1r : cfteE1r r0 l0 k = none := by
    unfold cfteE1r
    rw [if_neg (fun hh => by rw [hmod0] at hh; exact absurd hh.1 (by simp))]
    rw [hr0]
    rfl
  have he1l : cfteE1l r0 l0 k = none := by
    unfold cfteE1l
    rw [if_neg (fun hh => by rw [hmod0] at hh; exact absurd hh.1 (by simp))]
    rw [hl0]
    rfl
  have he2r_cond : (cfteE2r r0 l0 k).isSome = true →
      hasKey r0.added k = true ∧ ¬ (get? l0.added k = get? r0.added k) ∧
        truthy (get? l0.added k) = true := by
    intro h
    unfold cfteE2r at h
    rw [he1r] at h
    exact (isSome_ite_none_else _ _ h).1
  have he2l_cond : (cfteE2l r0 l0 k).isSome = true →
      hasKey r0.added k = true ∧ ¬ (get? l0.added k = get? r0.added k) ∧
        truthy (get? l0.added k) = true := by
    intro h
    unfold cfteE2l at h
    rw [he1l] at h
    exact (isSome_ite_none_else _ _ h).1
  refine ⟨?_, ?_, ?_, ?_, ?_, ?_, ?_, ?_, ?_, ?_⟩
  · rintro ⟨_, h2⟩
    have h2' : hasKey (compareFileTreesExcept r0 l0).1.deleted k = true := h2
    rw [hdelR] at h2'
    exact absurd h2' (by simp)
  · rintro ⟨_, h2⟩
    have h2' : hasKey (compareFileTreesExcept r0 l0).1.modified k = true := h2
    rw [hmodR] at h2'
    exact absurd h2' (by simp)
  · rintro ⟨h1, h2⟩
    have h1' : (get? (compareFileTreesExcept r0 l0).1.added k).isSome = true := by
      rw [← hasKey_eq_isSome_get?]
      exact h1
    rw [hAr] at h1'
    rcases isSome_ite_none _ _ h1' with ⟨hncA, _⟩
    have h2' : (get? (compareFileTreesExcept r0 l0).1.except k).isSome = true := by
      rw [← hasKey_eq_isSome_get?]
      exact h2
    rw [hXr] at h2'
    rcases isSome_ite_none _ _ h2' with ⟨_, hsomeE2r⟩
    have hc2 := he2r_cond hsomeE2r
    exact hncA ⟨hc2.1, Or.inr hc2.2.2⟩
  · rintro ⟨h1, _⟩
    have h1' : hasKey (compareFileTreesExcept r0 l0).1.deleted k = true := h1
    rw [hdelR] at h1'
    exact absurd h1' (by simp)
  · rintro ⟨h1, _⟩
    have h1' : hasKey (compareFileTreesExcept r0 l0).1.modified k = true := h1
    rw [hmodR] at h1'
    exact absurd h1' (by simp)
  · rintro ⟨_, h2⟩
    have h2' : hasKey (compareFileTreesExcept r0 l0).2.deleted k = true := h2
    rw [hdelL] at h2'
    exact absurd h2' (by simp)
  · rintro ⟨_, h2⟩
    have h2' : hasKey (compareFileTreesExcept r0 l0).2.modified k = true := h2
    rw [hmodL] at h2'
    exact absurd h2' (by simp)
  · rintro ⟨h1, h2⟩
    have h1' : (get? (compareFileTreesExcept r0 l0).2.added k).isSome = true := by
      rw [← hasKey_eq_isSome_get?]
      exact h1
    rw [hAl] at h1'
    rcases isSome_ite_none _ _ h1' with ⟨hncA, _⟩
    have h2' : (get? (compareFileTreesExcept r0 l0).2.except k).isSome = true := by
      rw [← hasKey_eq_isSome_get?]
      exact h2
    rw [hXl] at h2'
    rcases isSome_ite_none _ _ h2' with ⟨_, hsomeE2l⟩
    have hc2 := he2l_cond hsomeE2l
    exact hncA ⟨hc2.1, Or.inr hc2.2.2⟩
  · rintro ⟨h1, _⟩
    have h1' : hasKey (compareFileTreesExcept r0 l0).2.deleted k = true := h1
    rw [hdelL] at h1'
    exact absurd h1' (by simp)
  · rintro ⟨h1, _⟩
    have h1' : hasKey (compareFileTreesExcept r0 l0).2.modified k = true := h1
    rw [hmodL] at h1'
    exact absurd h1' (by simp)

/-- C1 (amended): in every ChangeSet returned by compareFileTrees, the
categories added, deleted and modified are pairwise disjoint, and the
conflicted (except) category is disjoint from added and from modified;
the deleted and except categories, however, may overlap. -/
theorem c1_disjoint_amended (ig : String → Bool) (prevF prevE R L : FileList)
    (hP : (keys prevF).Nodup) (hE : (keys prevE).Nodup)
    (hR : (keys R).Nodup) (hL : (keys L).Nodup) (k : String) :
    (¬ (hasKey (compareFileTrees ig prevF prevE R L).remoteFiles.added k = true ∧
        hasKey (compareFileTrees ig prevF prevE R L).remoteFiles.deleted k = true)) ∧
    (¬ (hasKey (compareFileTrees ig prevF prevE R L).remoteFiles.added k = true ∧
        hasKey (compareFileTrees ig prevF prevE R L).remoteFiles.modified k = true)) ∧
    (¬ (hasKey (compareFileTrees ig prevF prevE R L).remoteFiles.added k = true ∧
        hasKey (compareFileTrees ig prevF prevE R L).remoteFiles.except k = true)) ∧
    (¬ (hasKey (compareFileTrees ig prevF prevE R L).remoteFiles.deleted k = true ∧
        hasKey (compareFileTrees ig prevF prevE R L).remoteFiles.modified k = true)) ∧
    (¬ (hasKey (compareFileTrees ig prevF prevE R L).remoteFiles.modified k = true ∧
        hasKey (compareFileTrees ig prevF prevE R L).remoteFiles.except k = true)) ∧
    (¬ (hasKey (compareFileTrees ig prevF prevE R L).localFiles.added k = true ∧
        hasKey (compareFileTrees ig prevF prevE R L).localFiles.deleted k = true)) ∧
    (¬ (hasKey (compareFileTrees ig prevF prevE R L).localFiles.added k = true ∧
        hasKey (compareFileTrees ig prevF prevE R L).localFiles.modified k = true)) ∧
    (¬ (hasKey (compareFileTrees ig prevF prevE R L).localFiles.added k = true ∧
        hasKey (compareFileTrees ig prevF prevE R L).localFiles.except k = true)) ∧
    (¬ (hasKey (compareFileTrees ig prevF prevE R L).localFiles.deleted k = true ∧
        hasKey (compareFileTrees ig prevF prevE R L).localFiles.modified k = true)) ∧
    (¬ (hasKey (compareFileTrees ig prevF prevE R L).localFiles.modified k = true ∧
        hasKey (compareFileTrees ig prevF prevE R L).localFiles.except k = true)) := by
  by_cases hre : R.isEmpty = true
  · have hR0 : R = [] := by
      cases R with
      | nil => rfl
      | cons a l => simp [List.isEmpty] at hre
    subst hR0
    rw [compareFileTrees_remoteEmpty]
    simp [emptyFileTree, hasKey_nil]
  · by_cases hpe : prevF.isEmpty = true
    · exact disjoint_noPrev ig prevF prevE R L hpe (by simpa using hre) hR hL k
    · exact disjoint_case2 ig prevF prevE R L (by simpa using hpe) (by simpa using hre)
        hP hE hR hL k

/-- C1 counterexample: with snapshot files a↦H1, carried conflict a↦X,
remote a↦H2 and empty local listing, the path a ends up in both the
deleted and the conflicted (except) category of the local ChangeSet, so
the four categories are not pairwise disjoint as claimed. -/
theorem c1_disjoint_counterexample :
    hasKey (compareFileTrees (fun _ => false) [("a", "H1")] [("a", "X")]
      [("a", "H2")] []).localFiles.deleted "a" = true ∧
    hasKey (compareFileTrees (fun _ => false) [("a", "H1")] [("a", "X")]
      [("a", "H2")] []).localFiles.except "a" = true := by
  constructor <;> rfl

/-- Closed witness for the amended disjointness theorem at a concrete
input. -/
theorem c1_disjoint_amended_witness :
    (keys ([("a", "H1")] : FileList)).Nodup ∧
    ¬ (hasKey (compareFileTrees (fun _ => false) [("a", "H1")] [("a", "X")]
        [("a", "H2")] []).localFiles.added "a" = true ∧
       hasKey (compareFileTrees (fun _ => false) [("a", "H1")] [("a", "X")]
        [("a", "H2")] []).localFiles.except "a" = true) :=
  ⟨by decide,
   (c1_disjoint_amended (fun _ => false) [("a", "H1")] [("a", "X")] [("a", "H2")] []
     (by decide) (by decide) (by decide) (by decide) "a").2.2.2.2.2.2.2.1⟩

theorem eq_nil_of_get?_none (l : FileList) (h : ∀ k, get? l k = none) : l = [] := by
  cases l with
  | nil => rfl
  | cons e rest =>
    have he := h e.1
    rw [get?_cons, if_pos rfl] at he
    simp at he

/-- C10: an empty current remote FileList short-circuits compareFileTrees:
the whole local list is classified as locally added and every other
category of both ChangeSets is empty, regardless of the snapshot. -/
theorem c10_empty_remote (ig : String → Bool) (prevF prevE L : FileList) :
    compareFileTrees ig prevF prevE [] L =
      { remoteFiles := emptyFileTree, localFiles := { emptyFileTree with added := L } } :=
  compareFileTrees_remoteEmpty ig prevF prevE L

/-- C2 counterexample: with snapshot a.md↦H1, empty local listing and
remote listing a.md↦H1, the remote-side ChangeSet reports no deletion at
all — the claim expected remoteFiles.deleted = a.md↦H1 there. -/
theorem c2_deleted_side_counterexample :
    (compareFileTrees (fun _ => false) [("a.md", "H1")] [] [("a.md", "H1")]
      []).remoteFiles.deleted = [] ∧
    (compareFileTrees (fun _ => false) [("a.md", "H1")] [] [("a.md", "H1")]
      []).remoteFiles.deleted ≠ [("a.md", "H1")] := by
  constructor
  · rfl
  · intro h
    rw [show (compareFileTrees (fun _ => false) [("a.md", "H1")] [] [("a.md", "H1")]
        []).remoteFiles.deleted = ([] : FileList) from rfl] at h
    exact List.noConfusion h

/-- C2 (amended): the local deletion is reported on the local-side
ChangeSet — localFiles.deleted = a.md↦H1, kept by the cross-check
because the remote listing still carries a.md. -/
theorem c2_deleted_side_amended :
    (compareFileTrees (fun _ => false) [("a.md", "H1")] [] [("a.md", "H1")]
      []).localFiles.deleted = [("a.md", "H1")] ∧
    (compareFileTrees (fun _ => false) [("a.md", "H1")] [] [("a.md", "H1")]
      []).remoteFiles.deleted = [] := by
  constructor <;> rfl

/-- C8 counterexample: committing the current local list as the new
snapshot and re-running the reconciliation with the same local and
remote listings does not yield empty ChangeSets: a remote-only file b
is still reported as remotely added on the second run. -/
theorem c8_idempotence_counterexample :
    (compareFileTrees (fun _ => false) [("a", "H1")] []
      [("a", "H1"), ("b", "H2")] [("a", "H1")]).remoteFiles.added = [("b", "H2")] ∧
    (checkExistKey ((compareFileTrees (fun _ => false) [("a", "H1")] []
      [("a", "H1"), ("b", "H2")] [("a", "H1")]).localFiles.except) [("a", "H1")]) = [] ∧
    (compareFileTrees (fun _ => false) [("a", "H1")]
      (checkExistKey ((compareFileTrees (fun _ => false) [("a", "H1")] []
        [("a", "H1"), ("b", "H2")] [("a", "H1")]).localFiles.except) [("a", "H1")])
      [("a", "H1"), ("b", "H2")] [("a", "H1")]).remoteFiles.added = [("b", "H2")] := by
  refine ⟨rfl, rfl, rfl⟩

/-- C8 (amended): when the two replicas agree (local = remote = L) and
the snapshot is committed to that same listing (as saveState does after
a completed sync), re-running the reconciliation yields empty ChangeSets
in every category, for any carried except list and any exclusion
matcher. -/
theorem c8_idempotence_amended (ig : String → Bool) (L Ecarried : FileList)
    (hL : (keys L).Nodup) (hE : (keys Ecarried).Nodup) :
    compareFileTrees ig L Ecarried L L =
      { remoteFiles := emptyFileTree, localFiles := emptyFileTree } := by
  by_cases hle : L.isEmpty = true
  · have hL0 : L = [] := by
      cases L with
      | nil => rfl
      | cons a l => simp [List.isEmpty] at hle
    subst hL0
    rw [compareFileTrees_remoteEmpty]
    rfl
  · have hle' : L.isEmpty = false := by simpa using hle
    rw [compareFileTrees_case2 ig L Ecarried L L hle' hle']
    set P := filterExclusions ig L with hPdef
    set E := filterExclusions ig Ecarried with hEdef
    set b := comparePreviousFileTree P E L with hb
    set m : FileTree := { b with except := spread Ecarried b.except } with hm
    have hPn : (keys P).Nodup := nodupKeys_filterExclusions ig L hL
    have hEn : (keys E).Nodup := nodupKeys_filterExclusions ig Ecarried hE
    have hnm : (keys m.modified).Nodup := by
      rw [hm]
      exact cpf_nodup_modified P E L
    have hna : (keys m.added).Nodup := by
      rw [hm]
      exact cpf_nodup_added P E L
    have hnle : (keys m.except).Nodup := by
      rw [hm]
      exact nodupKeys_spread Ecarried b.except hE (cpf_nodup_except P E L hEn)
    have hPk : ∀ k, get? P k = if ig k = true then none else get? L k := by
      intro k
      rw [hPdef]
      exact get?_filterExclusions ig L k
    have hbmod : ∀ k, get? m.modified k = none := by
      intro k
      show get? b.modified k = none
      rw [hb, cpf_modified_get P E L k hL hEn]
      apply if_neg
      intro hh
      by_cases hig : ig k = true
      · have ht := hh.2.2.1
        rw [hPk k, if_pos hig] at ht
        simp [truthy] at ht
      · have hne := hh.2.1
        rw [hPk k, if_neg hig] at hne
        exact hne rfl
    have hbdel : m.deleted = [] := by
      show b.deleted = []
      apply eq_nil_of_get?_none
      intro k
      rw [hb, cpf_deleted_get P E L k hPn]
      apply if_neg
      intro hh
      have hkL : hasKey L k = true := by
        apply hasKey_of_hasKey_filter (fun p => !ig p.1) L k
        exact hh.1
      rw [hkL] at hh
      exact absurd hh.2 (by simp)
    have he2same : cfteE2l m m = cfteE2r m m := by
      funext k
      unfold cfteE2l cfteE2r cfteE1l cfteE1r
      rfl
    have f1 : ∀ k, get? (compareFileTreesExcept m m).1.added k = none := by
      intro k
      rcases cfte_added_get m m k hna with ⟨hAr, _⟩
      rw [hAr]
      by_cases hk : hasKey m.added k = true
      · rw [if_pos ⟨hk, Or.inl rfl⟩]
      · rw [if_neg (fun hh => hk hh.1)]
        rw [hasKey_eq_isSome_get?] at hk
        cases hg : get? m.added k with
        | none => rfl
        | some v => rw [hg] at hk; simp at hk
    have f2 : ∀ k, get? (compareFileTreesExcept m m).2.added k = none := by
      intro k
      rcases cfte_added_get m m k hna with ⟨_, hAl⟩
      rw [hAl]
      by_cases hk : hasKey m.added k = true
      · rw [if_pos ⟨hk, Or.inl rfl⟩]
      · rw [if_neg (fun hh => hk hh.1)]
        rw [hasKey_eq_isSome_get?] at hk
        cases hg : get? m.added k with
        | none => rfl
        | some v => rw [hg] at hk; simp at hk
    have f3 : ∀ k, get? (compareFileTreesExcept m m).1.modified k = none := by
      intro k
      rcases cfte_modified_get m m k hnm with ⟨hMr, _⟩
      rw [hMr]
      split_ifs
      · rfl
      · exact hbmod k
    have f4 : ∀ k, get? (compareFileTreesExcept m m).2.modified k = none := by
      intro k
      rcases cfte_modified_get m m k hnm with ⟨_, hMl⟩
      rw [hMl]
      split_ifs
      · rfl
      · exact hbmod k
    have f5 : ∀ k, get? (compareFileTreesExcept m m).1.except k = none := by
      intro k
      rcases cfte_except_get m m k hnm hna hnle with ⟨hXr, _⟩
      rw [hXr]
      by_cases hsome : (cfteE2l m m k).isSome = true
      · rw [if_pos ⟨hsome, by rw [he2same]⟩]
      · rw [if_neg (fun hh => hsome hh.1), ← congrFun he2same k]
        cases hg : cfteE2l m m k with
        | none => rfl
        | some v => rw [hg] at hsome; simp at hsome
    have f6 : ∀ k, get? (compareFileTreesExcept m m).2.except k = none := by
      intro k
      rcases cfte_except_get m m k hnm hna hnle with ⟨_, hXl⟩
      rw [hXl]
      by_cases hsome : (cfteE2l m m k).isSome = true
      · rw [if_pos ⟨hsome, by rw [he2same]⟩]
      · rw [if_neg (fun hh => hsome hh.1)]
        cases hg : cfteE2l m m k with
        | none => rfl
        | some v => rw [hg] at hsome; simp at hsome
    rcases cfte_deleted_lists m m with ⟨hDr, hDl⟩
    have hA1 := eq_nil_of_get?_none _ f1
    have hA2 := eq_nil_of_get?_none _ f2
    have hM1 := eq_nil_of_get?_none _ f3
    have hM2 := eq_nil_of_get?_none _ f4
    have hX1 := eq_nil_of_get?_none _ f5
    have hX2 := eq_nil_of_get?_none _ f6
    show ({ remoteFiles := { added := (compareFileTreesExcept m m).1.added,
                             deleted := checkExistKey (compareFileTreesExcept m m).1.deleted L,
                             modified := (compareFileTreesExcept m m).1.modified,
                             except := (compareFileTreesExcept m m).1.except },
            localFiles := { added := (compareFileTreesExcept m m).2.added,
                            deleted := checkExistKey (compareFileTreesExcept m m).2.deleted L,
                            modified := (compareFileTreesExcept m m).2.modified,
                            except := (compareFileTreesExcept m m).2.except } } : FileTrees) =
        { remoteFiles := emptyFileTree, localFiles := emptyFileTree }
    rw [hA1, hA2, hM1, hM2, hX1, hX2, hDr, hDl, hbdel]
    rfl

/-- Closed witness for the amended idempotence theorem at a concrete
input with a nontrivial exclusion matcher. -/
theorem c8_idempotence_amended_witness :
    (keys ([("a", "H1"), ("x", "H3")] : FileList)).Nodup ∧
    compareFileTrees (fun s => s == "x") [("a", "H1"), ("x", "H3")] [("c", "X")]
      [("a", "H1"), ("x", "H3")] [("a", "H1"), ("x", "H3")] =
      { remoteFiles := emptyFileTree, localFiles := emptyFileTree } :=
  ⟨by decide,
   c8_idempotence_amended (fun s => s == "x") [("a", "H1"), ("x", "H3")] [("c", "X")]
     (by decide) (by decide)⟩

/-! ### Remote deletion failure collection -/

theorem failedPaths_foldl (jb : String → String) (resp : String → Nat)
    (l : List String) (a : List String) :
    l.foldl (fun acc path =>
      let fullPath := jb (cleanPath path)
      if deleteFileSuccess (resp fullPath) then acc else acc ++ [fullPath]) a =
    a ++ (l.filter (fun p => !deleteFileSuccess (resp (jb (cleanPath p))))).map
      (fun p => jb (cleanPath p)) := by
  induction l generalizing a with
  | nil => simp
  | cons x xs ih =>
    simp only [List.foldl_cons, List.filter_cons]
    by_cases h : deleteFileSuccess (resp (jb (cleanPath x))) = true
    · simp [h, ih]
    · simp [h, ih]

/-- C6 counterexample: a remote deletion answered with status 201 is
recorded as a failed deletion and queued for the retry round — the
claim expected 201 to count as effective success. (The listing has one
key, so every completion order of the batch is this one.) -/
theorem c6_delete_success_codes_counterexample :
    deleteFileSuccess 201 = false ∧
    failedPaths (fun s => s) (fun _ => 201) (keys [("a.md", "H1")]) = ["a.md"] := by
  constructor
  · rfl
  · rfl

/-- C6 (amended): exactly the status codes 200, 204 and 404 count as
effective success for remote deletions — 201 does not — and for every
completion order of the concurrently launched batch, the failed list
is a permutation of the joined clean paths whose response is not one
of those three codes: a full path is recorded (and so retried) iff
some listed path joins to it and its response code is a failure. -/
theorem c6_delete_success_codes_amended (jb : String → String)
    (resp : String → Nat) (fileTree : FileList) (order : List String)
    (hperm : order.Perm (keys fileTree)) :
    (∀ r : Nat, deleteFileSuccess r = true ↔ (r = 200 ∨ r = 204 ∨ r = 404)) ∧
    (failedPaths jb resp order).Perm
      (((keys fileTree).filter
        (fun p => !deleteFileSuccess (resp (jb (cleanPath p))))).map
        (fun p => jb (cleanPath p))) ∧
    (∀ fp : String, fp ∈ failedPaths jb resp order ↔
      ∃ p, p ∈ keys fileTree ∧ fp = jb (cleanPath p) ∧
        deleteFileSuccess (resp fp) = false) := by
  have heq : failedPaths jb resp order =
      (order.filter (fun p => !deleteFileSuccess (resp (jb (cleanPath p))))).map
        (fun p => jb (cleanPath p)) := by
    unfold failedPaths
    rw [failedPaths_foldl]
    simp
  have hperm2 : (failedPaths jb resp order).Perm
      (((keys fileTree).filter
        (fun p => !deleteFileSuccess (resp (jb (cleanPath p))))).map
        (fun p => jb (cleanPath p))) := by
    rw [heq]
    exact (hperm.filter _).map _
  refine ⟨?_, hperm2, ?_⟩
  · intro r
    simp [deleteFileSuccess, or_assoc]
  · intro fp
    rw [hperm2.mem_iff]
    simp only [List.mem_map, List.mem_filter, Bool.not_eq_true']
    constructor
    · rintro ⟨p, ⟨hp, hq⟩, rfl⟩
      exact ⟨p, hp, rfl, hq⟩
    · rintro ⟨p, hp, rfl, hq⟩
      exact ⟨p, ⟨hp, hq⟩, rfl⟩

/-- Closed witness for the amended deletion-codes theorem: a two-file
batch completing in the reverse of listing order, one response 201
(failure, retried) and one 204 (success). -/
theorem c6_delete_success_codes_amended_witness :
    (["b.md", "dir/"] : List String).Perm (keys [("dir/", "hA"), ("b.md", "hB")]) ∧
    (failedPaths (fun s => s) (fun fp => if fp == "dir" then 201 else 204)
        ["b.md", "dir/"]).Perm
      (((keys [("dir/", "hA"), ("b.md", "hB")]).filter
        (fun p => !deleteFileSuccess (if cleanPath p == "dir" then 201 else 204))).map
        (fun p => cleanPath p)) :=
  ⟨by decide,
   (c6_delete_success_codes_amended (fun s => s)
     (fun fp => if fp == "dir" then 201 else 204) [("dir/", "hA"), ("b.md", "hB")]
     ["b.md", "dir/"] (by decide)).2.1⟩

/-! ### The danger guard -/

/-- C4 counterexample: sixteen protected-prefix paths sit in
`localFiles.deleted`, yet because the exact `".obsidian/"` entry is
deleted before counting, the guard counts only fifteen, passes, and
leaves status and error flag untouched — the claim expected sixteen
such paths to force `ERROR`. -/
theorem c4_danger_guard_counterexample :
    ((keys ft16.localFiles.deleted).countP (fun v => strStarts v ".obsidian") = 16) ∧
    (dangerCheck pIdle ft16).2 = true ∧
    (dangerCheck pIdle ft16).1.status = Status.NONE ∧
    (dangerCheck pIdle ft16).1.prevError = false := by
  refine ⟨by decide, by decide, by decide, by decide⟩

/-- C4 (amended): the guard first deletes the exact `".obsidian/"` key
and only then counts keys starting with `".obsidian"`; it passes iff
that post-deletion count is at most 15, a tripped guard forces `ERROR`
with the persisted flag, and a passing guard changes nothing except
committing the key deletion back into the cached trees. -/
theorem c4_danger_guard_amended (p : PState) (ft : FileTrees) :
    ((dangerCheck p ft).2 = true ↔
      (keys (objDelete ft.localFiles.deleted ".obsidian/")).countP
        (fun v => strStarts v ".obsidian") ≤ 15) ∧
    ((dangerCheck p ft).1.status =
      if 15 < (keys (objDelete ft.localFiles.deleted ".obsidian/")).countP
          (fun v => strStarts v ".obsidian") then Status.ERROR else p.status) ∧
    ((dangerCheck p ft).1.prevError =
      if 15 < (keys (objDelete ft.localFiles.deleted ".obsidian/")).countP
          (fun v => strStarts v ".obsidian") then true else p.prevError) ∧
    ((dangerCheck p ft).1.fileTrees =
      some { ft with localFiles :=
        { ft.localFiles with deleted := objDelete ft.localFiles.deleted ".obsidian/" } }) := by
  by_cases h : 15 < (keys (objDelete ft.localFiles.deleted ".obsidian/")).countP
      (fun v => strStarts v ".obsidian")
  · have hnot := Nat.not_le.mpr h
    simp [dangerCheck, setError, setStatus, h, hnot]
  · have hle := Nat.not_lt.mp h
    simp [dangerCheck, setError, setStatus, h, hle]

/-! ### Hash tree builder invariants -/

theorem hasKey_objInsert_of (l : FileList) (k v k' : String)
    (h : hasKey l k' = true) : hasKey (objInsert l k v) k' = true := by
  rw [hasKey_objInsert]
  split_ifs
  · rfl
  · exact h

theorem hasKey_foldl_mono {α : Type} (g : FileList → α → FileList)
    (hg : ∀ a x kk, hasKey a kk = true → hasKey (g a x) kk = true)
    (l : List α) (a : FileList) (k : String) (h : hasKey a k = true) :
    hasKey (l.foldl g a) k = true := by
  induction l generalizing a with
  | nil => simpa using h
  | cons x xs ih => exact ih (g a x) (hg a x k h)

mutual

theorem walkDir_hasKey_mono (x : XSettings) (ch : String → String) (e : Bool)
    (d : FsDir) (acc : FileList) (k : String) (h : hasKey acc k = true) :
    hasKey (walkDir x ch e d acc) k = true := by
  match d with
  | FsDir.mk files folders =>
    simp only [walkDir]
    exact walkForest_hasKey_mono x ch e folders _ k
      (hasKey_foldl_mono _ (fun a f kk hh => by
        split_ifs
        · exact hh
        · exact hasKey_objInsert_of _ _ _ _ hh) files acc k h)

theorem walkForest_hasKey_mono (x : XSettings) (ch : String → String) (e : Bool)
    (fs : FsForest) (acc : FileList) (k : String) (h : hasKey acc k = true) :
    hasKey (walkForest x ch e fs acc) k = true := by
  match fs with
  | FsForest.nil => simpa only [walkForest] using h
  | FsForest.cons name d rest =>
    simp only [walkForest]
    exact walkForest_hasKey_mono x ch e rest _ k (by
      by_cases hex : (e && isExcluded x (name ++ "/")) = true
      · rw [if_pos hex]
        exact h
      · rw [if_neg hex]
        exact walkDir_hasKey_mono x ch e d _ k (hasKey_objInsert_of _ _ _ _ h))

end

/-- C9 counterexample: with the exclusion override on, a vault holding
a folder `dir` and a file `a.md`, and an empty hidden listing, the
builder's output contains the trailing-slash directory entries `dir/`
and `.obsidian/`, both carrying the zero-length placeholder digest —
the claim said the output holds only real files with no empty
digests. -/
theorem c9_real_files_counterexample :
    get? (generateLocalHashTree xOverride (fun _ => "HA") (fun _ => none)
      [VaultEntry.folder "dir", VaultEntry.file "a.md"]
      (FsDir.mk [] FsForest.nil) true) "dir/" = some "" ∧
    get? (generateLocalHashTree xOverride (fun _ => "HA") (fun _ => none)
      [VaultEntry.folder "dir", VaultEntry.file "a.md"]
      (FsDir.mk [] FsForest.nil) true) ".obsidian/" = some "" ∧
    strEnds "dir/" "/" = true := by
  refine ⟨rfl, rfl, rfl⟩

/-- C9 (amended): the local hash tree builder never returns a pure
file map — for every settings record, hashing functions, vault
contents and hidden listing it emits the trailing-slash configuration
directory entry unconditionally (and, as the closed evaluation shows,
a `""`-digest trailing-slash entry for each included folder). -/
theorem c9_real_files_amended (x : XSettings) (contentHash : String → String)
    (fileCache : String → Option String) (loaded : List VaultEntry)
    (hidden : FsDir) (exclude : Bool) :
    hasKey (generateLocalHashTree x contentHash fileCache loaded hidden exclude)
      (x.configDir ++ "/") = true := by
  simp only [generateLocalHashTree]
  apply walkDir_hasKey_mono
  rw [hasKey_objInsert]
  simp

/-! ### The status machine of sync -/

theorem check_no_throw (w : World) (p : PState) (hC : w.checksumsThrow = false) :
    (check w p).2 ≠ CheckOut.threw := by
  simp only [check]
  split_ifs <;> simp_all

theorem syncCore_no_throw_facts (w : World) (c : Controller) (p : PState)
    (ft : FileTrees) (hC : w.checksumsThrow = false) (htot : countOps c ft ≠ 0) :
    (syncCore w c p ft).2.1 = SyncOut.completed ∧
    (syncCore w c p ft).1.status = Status.NONE ∧
    (syncCore w c p ft).1.progressReset = true ∧
    (syncCore w c p ft).2.2 = syncOps c ft := by
  simp only [syncCore]
  rw [if_neg htot, if_neg (check_no_throw w _ hC)]
  simp [finished, setStatus]

/-- C3 (code bug): invoking `sync` while the status is `SYNC` does not
return immediately. `test(false)` unconditionally resets a successful
connection's status to `NONE` before the status gate reads it, so with
a healthy connection and cached ChangeSets the sync proceeds: it
dispatches transfers, replaces the snapshot and replaces the cached
ChangeSets — the spec requires an immediate rejection with no
mutation. -/
theorem c3_status_gate_bug :
    pSyncing.status = Status.SYNC ∧
    (sync wSyncGate cMod pSyncing).2.2 ≠ [] ∧
    (sync wSyncGate cMod pSyncing).2.1 = SyncOut.completed ∧
    (sync wSyncGate cMod pSyncing).1.prevFiles ≠ pSyncing.prevFiles ∧
    (sync wSyncGate cMod pSyncing).1.fileTrees ≠ pSyncing.fileTrees := by
  refine ⟨by decide, by decide, by decide, by decide, by decide⟩

/-- C5 counterexample: a sync that enters `SYNC` with a healthy
connection but whose post-dispatch re-check throws while rebuilding
the hash trees ends in status `ERROR` with the persisted flag set —
the `finally` block only clears the progress bar, so there is no
guaranteed transition back to Idle. -/
theorem c5_cleanup_counterexample :
    (sync wThrow cMod pCached).2.1 = SyncOut.errored ∧
    (sync wThrow cMod pCached).1.status = Status.ERROR ∧
    (sync wThrow cMod pCached).1.prevError = true ∧
    (sync wThrow cMod pCached).1.progressReset = true := by
  refine ⟨by decide, by decide, by decide, by decide⟩

/-- C5 (amended): when nothing throws, a sync that starts unblocked
(no persisted error), online, with cached ChangeSets and a non-empty
operation count completes: it dispatches exactly the controller's
transfers, ends with status `NONE`, and the cleanup has reset the
progress bar. On the throwing path status ends `ERROR` instead (see
the counterexample); the cleanup never restores the status. -/
theorem c5_cleanup_amended (w : World) (c : Controller) (p : PState)
    (ft : FileTrees) (hE : p.prevError = false) (hOn : w.online = true)
    (hT : w.statusThrows = false) (hC : w.checksumsThrow = false)
    (hft : p.fileTrees = some ft) (htot : countOps c ft ≠ 0) :
    (sync w c p).2.1 = SyncOut.completed ∧
    (sync w c p).1.status = Status.NONE ∧
    (sync w c p).1.progressReset = true ∧
    (sync w c p).2.2 = syncOps c ft := by
  simp only [sync, testOp, setStatus, setError, hE, hOn, hT, hft]
  simp only [Bool.false_eq_true, if_false, ite_false, ite_true, ne_eq,
    not_true_eq_false, not_false_eq_true]
  exact syncCore_no_throw_facts w c _ ft hC htot

/-- Closed witness for the amended sync completion theorem. -/
theorem c5_cleanup_amended_witness :
    (pCached.prevError = false ∧ wSyncGate.online = true ∧
     wSyncGate.statusThrows = false ∧ wSyncGate.checksumsThrow = false ∧
     pCached.fileTrees = some ftCached ∧ countOps cMod ftCached ≠ 0) ∧
    ((sync wSyncGate cMod pCached).2.1 = SyncOut.completed ∧
     (sync wSyncGate cMod pCached).1.status = Status.NONE ∧
     (sync wSyncGate cMod pCached).1.progressReset = true ∧
     (sync wSyncGate cMod pCached).2.2 = syncOps cMod ftCached) :=
  ⟨⟨rfl, rfl, rfl, rfl, rfl, by decide⟩,
   c5_cleanup_amended wSyncGate cMod pCached ftCached rfl rfl rfl rfl rfl (by decide)⟩
